import Mathlib

/-!
Verification of the episode/segment resolution and stream-selection pipeline of
script.module.srgssr (lib/srgssr.py), shallowly embedded in Lean.

The embedding covers:
* the quality/protocol resource selector of `play_video` (lines 1469-1507),
* the chapter/segment locate logic of `play_video` (lines 1458-1462, 1520-1534)
  and of `build_episode_menu` (lines 941-1009),
* the token-service call `get_auth_url` (lines 1411-1432),
* the time-window query rewrite of `play_video` (lines 1536-1553) together with
  a model of the Python stdlib helpers it uses (`urlparse` / `ParseResult.geturl`
  / `parse_qsl`), implemented over `List Char`.

Strings from the Python program are modelled as `List Char` (Lean `String.data`)
so that splitting/joining can be reasoned about directly.  Percent-decoding and
plus-decoding inside `parse_qsl` are elided: the repository's own serializer
(`utils.assemble_query_string`, not part of lib/srgssr.py) is modelled from the
spec as the plain inverse of the query parser, so encode/decode layers cancel.
-/

namespace Srgssr


/-! ### Splitting primitives over character lists

`splitFirst c l` embeds Python `l.split(c, 1)` (when `c` occurs), returning the
parts before and after the first occurrence of `c`. -/

/-- Split a character list at the first occurrence of `c`. -/
def splitFirst (c : Char) : List Char → Option (List Char × List Char)
  | [] => none
  | x :: xs =>
    if x = c then some ([], xs)
    else (splitFirst c xs).map (fun p => (x :: p.1, p.2))

/-! ### The query-string parser: Python `urllib.parse.parse_qsl`

Default arguments (`keep_blank_values=False`, `strict_parsing=False`,
separator `&`): split the query on `&`, drop empty chunks, drop chunks without
`=`, split each remaining chunk at its first `=`, drop pairs whose value is
empty.  Percent/plus decoding is elided (see file header). -/

/-- One chunk of a query string, turned into a pair if it survives
`parse_qsl`'s filters. -/
def qslChunk (chunk : List Char) : Option (List Char × List Char) :=
  if chunk = [] then none
  else (splitFirst '=' chunk).bind (fun p => if p.2 = [] then none else some p)

/-- Embedding of Python `urllib.parse.parse_qsl` (defaults). -/
def parse_qsl (qs : List Char) : List (List Char × List Char) :=
  (qs.splitOn '&').filterMap qslChunk

/-- Modelled from the spec: `utils.assemble_query_string` is part of the
repository (`lib/utils.py`) but not among the provided sources; §4.6 of the
spec describes the rewriter as reserializing the parsed query pairs.  It is
modelled as the inverse of the query parser: join each pair with `=` and the
pairs with `&`. -/
def assemble_query_string (ql : List (List Char × List Char)) : List Char :=
  [('&' : Char)].intercalate (ql.map (fun p => p.1 ++ '=' :: p.2))

/-- Well-formedness of a query pair: what `parse_qsl` outputs satisfy, and what
makes `assemble_query_string` invertible. -/
def wfPair (p : List Char × List Char) : Prop :=
  '&' ∉ p.1 ∧ '=' ∉ p.1 ∧ '&' ∉ p.2 ∧ p.2 ≠ []

/-! ### URL parsing: Python `urllib.parse.urlparse` and `ParseResult.geturl`

`play_video` re-parses the authorized URL, rewrites the query and reassembles
the URL with `ParseResult(...).geturl()`.  The CPython functions are embedded
over `List Char`; control-character stripping and `allow_fragments=False` are
elided (callers always allow fragments; inputs carry no control characters). -/

/-- Python `scheme_chars`: ASCII letters, digits, and `+`, `-`, `.`. -/
def isSchemeChar (c : Char) : Bool :=
  c.isAlpha || c.isDigit || c = '+' || c = '-' || c = '.'

/-- In `_splitnetloc` the netloc runs until the next `/`, `?` or `#`. -/
def netlocDelim (c : Char) : Bool := c = '/' || c = '?' || c = '#'

/-- Take the netloc part: characters before the first delimiter. -/
def takeNetloc : List Char → List Char × List Char
  | [] => ([], [])
  | x :: xs =>
    if netlocDelim x then ([], x :: xs)
    else ((takeNetloc xs).1.cons x, (takeNetloc xs).2)

/-- The scheme step of `urlsplit`: the part before the first `:` is the scheme
iff it is nonempty and made of scheme characters only; it gets lowercased. -/
def splitScheme (url : List Char) : List Char × List Char :=
  match splitFirst ':' url with
  | none => ([], url)
  | some (pre, post) =>
    if pre ≠ [] ∧ pre.all isSchemeChar then (pre.map Char.toLower, post)
    else ([], url)

/-- Split a character list at the last occurrence of `/`. -/
def splitLastSlash : List Char → Option (List Char × List Char)
  | [] => none
  | x :: xs =>
    match splitLastSlash xs with
    | some p => some (x :: p.1, p.2)
    | none => if x = '/' then some ([], xs) else none

/-- `urlparse`'s parameter split: parameters start at the first `;` that
follows the last `/` (or anywhere when there is no `/`); no split when the
candidate segment has no `;`. -/
def splitparams (u : List Char) : List Char × List Char :=
  if ';' ∈ u then
    match splitLastSlash u with
    | some p =>
      match splitFirst ';' p.2 with
      | some q => (p.1 ++ '/' :: q.1, q.2)
      | none => (u, [])
    | none =>
      match splitFirst ';' u with
      | some q => (q.1, q.2)
      | none => (u, [])
  else (u, [])

/-- The last `/`-separated segment of a path (the whole path if no `/`). -/
def lastSeg (path : List Char) : List Char :=
  match splitLastSlash path with
  | some p => p.2
  | none => path

/-- The six components of Python `urlparse`'s `ParseResult`. -/
structure ParseResult where
  scheme : List Char
  netloc : List Char
  path : List Char
  params : List Char
  query : List Char
  fragment : List Char
deriving DecidableEq

/-- The netloc step of `urlsplit`: only when the remainder starts with `//`. -/
def splitNetloc (u : List Char) : List Char × List Char :=
  if u.take 2 = ['/', '/'] then takeNetloc (u.drop 2) else ([], u)

/-- The fragment step of `urlsplit`: split at the first `#`. -/
def splitFragment (u : List Char) : List Char × List Char :=
  match splitFirst '#' u with
  | some p => p
  | none => (u, [])

/-- The query step of `urlsplit`: split at the first `?`. -/
def splitQuery (u : List Char) : List Char × List Char :=
  match splitFirst '?' u with
  | some p => p
  | none => (u, [])

/-- Embedding of Python `urllib.parse.urlparse`. -/
def urlps (url : List Char) : ParseResult :=
  let s := splitScheme url
  let n := splitNetloc s.2
  let f := splitFragment n.2
  let q := splitQuery f.1
  let pp := splitparams q.1
  ⟨s.1, n.1, pp.1, pp.2, q.2, f.2⟩

/-- `urlunparse`'s recombination of path and params. -/
def combineParams (path ps : List Char) : List Char :=
  if ps = [] then path else path ++ ';' :: ps

/-- Embedding of Python `ParseResult.geturl` (`urlunparse`/`urlunsplit`). -/
def geturl (pr : ParseResult) : List Char :=
  let u0 := combineParams pr.path pr.params
  let u1 :=
    if pr.netloc ≠ [] ∨ u0.take 2 = ['/', '/'] then
      '/' :: '/' :: (pr.netloc ++ (if u0 ≠ [] ∧ u0.head? ≠ some '/' then '/' :: u0 else u0))
    else u0
  let u2 := if pr.scheme ≠ [] then pr.scheme ++ ':' :: u1 else u1
  let u3 := if pr.query ≠ [] then u2 ++ '?' :: pr.query else u2
  if pr.fragment ≠ [] then u3 ++ '#' :: pr.fragment else u3

/-- No nonempty all-scheme-character prefix ends at a colon. -/
def noSchemePrefix (l : List Char) : Prop :=
  ∀ a b, l = a ++ ':' :: b → a = [] ∨ ¬ a.all isSchemeChar = true

/-- Invariants of parsed URLs: exactly what makes `geturl` invert `urlps`. -/
def wfParse (pr : ParseResult) : Prop :=
  (pr.scheme ≠ [] →
    pr.scheme.all isSchemeChar = true ∧ pr.scheme.map Char.toLower = pr.scheme) ∧
  (∀ c ∈ pr.netloc, netlocDelim c = false) ∧
  (∀ c ∈ pr.path, c ≠ '?' ∧ c ≠ '#') ∧
  (∀ c ∈ pr.params, c ≠ '?' ∧ c ≠ '#' ∧ c ≠ '/') ∧
  '#' ∉ pr.query ∧
  (pr.netloc ≠ [] → (pr.path = [] ∧ pr.params = []) ∨ pr.path.head? = some '/') ∧
  ';' ∉ lastSeg pr.path ∧
  (pr.scheme = [] → pr.netloc = [] →
    noSchemePrefix (combineParams pr.path pr.params))

/-! ### The time-window rewrite of play_video (lines 1536-1553) -/

/-- The filter of lines 1540-1543: drop existing start/end parameters. -/
def dropWindow (ql : List (List Char × List Char)) :
    List (List Char × List Char) :=
  ql.filter (fun q => !(q.1 == "start".data || q.1 == "end".data))

/-- Embedding of the time-window rewrite (play_video lines 1537-1553):
re-parse the URL, strip any `start`/`end` query parameters, append the new
marks (already converted to seconds), reassemble with `ParseResult.geturl`. -/
def applyWindow (url : List Char) (startTime endTime : Int) : List Char :=
  let p := urlps url
  let ql := parse_qsl p.query
  let updated := dropWindow ql ++
    [("start".data, (toString startTime).data),
     ("end".data, (toString endTime).data)]
  geturl { p with query := assemble_query_string updated }

/-! ### Data model of the media-composition document

JSON dictionaries are embedded as structures; a field read with `dict.get`
(default `None`) is an `Option`, a field read with `utils.try_get` (default
`''` for strings, `[]` for lists, `None` when passed explicitly) keeps that
default. -/

structure Drm where
  type : String
  licenseUrl : String
deriving DecidableEq

structure Resource where
  protocol : String
  quality : String
  url : String
  /-- `some dl` iff the JSON resource has a `drmList` key (line 1491). -/
  drmList : Option (List Drm)
deriving DecidableEq

structure Segment where
  id : Option String
  markIn : Option Int
  markOut : Option Int
deriving DecidableEq

structure Chapter where
  id : Option String
  mediaType : Option String
  resourceList : List Resource
  segmentList : List Segment
deriving DecidableEq

structure MediaComposition where
  chapterList : List Chapter
  /-- `utils.try_get(json_response, 'segmentUrn')`, default `''`. -/
  segmentUrn : String
  /-- `json_response['episode']['title']`, guarded by try/except. -/
  episodeTitle : Option String
deriving DecidableEq

/-- Python `str.upper` (ASCII data in scope). -/
def pyUpper (s : String) : String := ⟨s.data.map Char.toUpper⟩

/-! ### The resource selector of play_video (lines 1469-1507) -/

/-- The protocol whitelist (lines 1473-1474): maps an uppercased protocol to
its manifest type; `none` = KeyError = skip the resource (line 1485). -/
def protocols (audio : Bool) (p : String) : Option String :=
  if audio then
    if p = "HTTP" ∨ p = "HTTPS" ∨ p = "HTTP-MP3-STREAM" then some "" else none
  else
    if p = "HLS" then some "hls"
    else if p = "DASH" then some "mpd"
    else none

/-- The quality weight table (lines 1476-1477); an unknown quality weighs 0
via the except-branch of line 1488. -/
def weight (prefer_hd : Bool) (q : String) : Int :=
  if prefer_hd then
    if q = "SD" then 1 else if q = "HD" then 2 else if q = "HQ" then 2 else 0
  else
    if q = "HD" then 1 else if q = "HQ" then 1 else if q = "SD" then 2 else 0

/-- The loop state: current_weight, mf_type, lic_url, stream_url
(lines 1479-1481; mf_type unassigned before the first adoption). -/
structure SelState where
  current_weight : Int
  mf_type : Option String
  lic_url : Option String
  stream_url : Option String
deriving DecidableEq

def initSelState : SelState := ⟨-1, none, none, none⟩

/-- The WIDEVINE scan of lines 1492-1498: every WIDEVINE entry overwrites the
adoption (no break), other DRM types leave the state alone. -/
def drmScan (dl : List Drm) (resWeight : Int) (resMf resUrl : String)
    (st : SelState) : SelState :=
  dl.foldl (fun s drm =>
    if drm.type = "WIDEVINE" then ⟨resWeight, some resMf, some drm.licenseUrl, some resUrl⟩
    else s) st

/-- One iteration of the resource loop (lines 1483-1503). -/
def selectStep (audio prefer_hd : Bool) (st : SelState) (res : Resource) :
    SelState :=
  match protocols audio (pyUpper res.protocol) with
  | none => st
  | some resMf =>
    if weight prefer_hd res.quality < st.current_weight then st
    else
      match res.drmList with
      | some dl => drmScan dl (weight prefer_hd res.quality) resMf res.url st
      | none => ⟨weight prefer_hd res.quality, some resMf, none, some res.url⟩

/-- The full scan over the resource list (lines 1479-1503). -/
def selectResource (audio prefer_hd : Bool) (rl : List Resource) : SelState :=
  rl.foldl (selectStep audio prefer_hd) initSelState

/-! ### get_auth_url (lines 1411-1432) -/

/-- Outcome of `json.loads(open_url(tokenUrl))`: `unparsable` when open_url
returned `''` (transport failure, line 200) or non-JSON text — json.loads
then raises and nothing catches it; `parsed ap` for a parsed document with
`ap = token.get('token', {}).get('authparams')` (the `or {}` of line 1424
covers documents that parse to a falsy value). -/
inductive TokenResponse where
  | unparsable
  | parsed (authparams : Option String)
deriving DecidableEq

/-- Embedding of get_auth_url. The acl of lines 1420-1424 is built from
`spl = urlparse(url).path.split('/')` through the subscripts `spl[1]` and
`spl[2]`: a path that splits into fewer than three parts raises IndexError
while formatting the token URL, before open_url is even called and whatever
the token service would answer. Only the indexing behaviour of the acl is
kept; the reply it selects is the `tok` parameter. -/
def get_auth_url (tok : TokenResponse) (url : String) : Except String String :=
  let spl := (urlps url.data).path.splitOn '/'
  if spl.length < 3 then .error "IndexError: list index out of range"
  else
    match tok with
    | .unparsable => .error "ValueError: json.loads"
    | .parsed ap =>
      match ap with
      | some auth =>
        .ok (url ++ (if url.data.contains '?' then "&" else "?") ++ auth)
      | none => .ok url

/-! ### The time-window step of play_video (lines 1520-1553) -/

/-- Truthiness of an int-or-None Python value. -/
def truthyInt : Option Int → Bool
  | none => false
  | some n => n != 0

/-- Mark extraction (lines 1524-1534): find the segment with the requested
id, read markIn/markOut (default None), floor-divide by 1000 only when the
raw value is truthy. -/
def segmentTimes (segList : List Segment) (videoId : String) :
    Option Int × Option Int :=
  match segList.find? (fun seg => seg.id.getD "" == videoId) with
  | none => (none, none)
  | some seg =>
    (match seg.markIn with
      | none => none
      | some n => if n = 0 then some 0 else some (Int.fdiv n 1000),
     match seg.markOut with
      | none => none
      | some n => if n = 0 then some 0 else some (Int.fdiv n 1000))

/-- The guarded rewrite (lines 1536-1553): only when both whole-second marks
are truthy is the URL rewritten. -/
def windowStep (authUrl : String) (times : Option Int × Option Int) : String :=
  if truthyInt times.1 && truthyInt times.2 then
    ⟨applyWindow authUrl.data (times.1.getD 0) (times.2.getD 0)⟩
  else authUrl

/-! ### play_video (lines 1434-1575) -/

inductive PlayOutcome where
  /-- an exception escaped play_video -/
  | raised (msg : String)
  /-- logged "no stream URL found" and returned without resolving -/
  | noStream (reason : String)
  /-- audio path (lines 1515-1518): a bare ListItem on the raw stream URL -/
  | resolvedAudio (title path : String)
  /-- video path (lines 1555-1575) -/
  | resolvedVideo (title path mfType : String)
      (license : Option (String × String)) (subs : Option (List String))
deriving DecidableEq

/-- The URN construction of play_video lines 1443-1446: an identifier that
already starts with `urn:` is used as is; otherwise the whole identifier
becomes the last URN component. -/
def pvUrn (bu videoId : String) (audio : Bool) : String :=
  if "urn:".data.isPrefixOf videoId.data then videoId
  else "urn:" ++ bu ++ ":" ++ (if audio then "audio" else "video") ++ ":" ++ videoId

/-- Embedding of play_video. Network effects are parameters: `fetch` is the
media-composition document, `none` when open_url returned `''` or malformed
JSON (json.loads at line 1451 then raises, uncaught); `tok` feeds
get_auth_url (line 1514); `subs` stands for the get_subtitles result
(line 1557, attached only when the subtitles setting is on; the emptiness
re-check of line 1558 is elided).  The stream check of line 1505 is Python
truthiness, so a selected resource whose url is `''` also counts as no
stream. -/
def play_video (bu : String) (prefer_hd subtitles : Bool)
    (fetch : Option MediaComposition) (tok : TokenResponse)
    (subs : Option (List String)) (videoId : String) (audio : Bool) :
    PlayOutcome :=
  let urn := pvUrn bu videoId audio
  match fetch with
  | none => .raised "ValueError: json.loads"
  | some resp =>
    if resp.chapterList.isEmpty then .noStream "chapterList empty"
    else
      let firstChapter := resp.chapterList.headD ⟨none, none, [], []⟩
      let chapter :=
        (resp.chapterList.find? (fun e => e.id == some videoId)).getD firstChapter
      if chapter.resourceList.isEmpty then .noStream "resourceList empty"
      else
        let audio2 := audio || (match chapter.mediaType with
          | some m => pyUpper m == "AUDIO"
          | none => false)
        let sel := selectResource audio2 prefer_hd chapter.resourceList
        match sel.stream_url with
        | none => .noStream "no stream URL"
        | some streamUrl =>
          if streamUrl.isEmpty then .noStream "no stream URL"
          else
          let title := resp.episodeTitle.getD urn
          match get_auth_url tok streamUrl with
          | .error msg => .raised msg
          | .ok authUrl =>
            if audio2 then .resolvedAudio title streamUrl
            else
              let times := if resp.segmentUrn ≠ "" then
                  segmentTimes chapter.segmentList videoId
                else (none, none)
              .resolvedVideo title (windowStep authUrl times)
                (sel.mf_type.getD "")
                (sel.lic_url.map (fun l => (l, "com.widevine.alpha")))
                (if subtitles then subs else none)

/-! ### build_episode_menu (lines 909-1009) -/

structure BemComposition where
  /-- `utils.try_get(json_response, 'chapterUrn')`, default `''`. -/
  chapterUrn : String
  segmentUrn : String
  chapterList : List Chapter
deriving DecidableEq

/-- Whether a character list is a nonempty run of lowercase ASCII letters
(one `[a-z]+` regex atom followed by a forced `:`). -/
def lowerRun (l : List Char) : Bool :=
  !l.isEmpty && l.all (fun c => 'a' ≤ c && c ≤ 'z')

/-- Embedding of `re.match(r'[a-z]+:[a-z]+:[a-z]+:(?P<id>.+)', s)` followed by
`.group('id')` (lines 944-948): three nonempty lowercase runs each followed
by a colon, then the greedy `.+` group — at least one character, stopping at
a newline because `.` does not match newlines. `none` when the string does
not match (the caller then gets `None` for the id). -/
def matchIdRegex (s : String) : Option String :=
  match splitFirst ':' s.data with
  | none => none
  | some (w1, r1) =>
    if lowerRun w1 then
      match splitFirst ':' r1 with
      | none => none
      | some (w2, r2) =>
        if lowerRun w2 then
          match splitFirst ':' r2 with
          | none => none
          | some (w3, rest) =>
            if lowerRun w3 then
              if (rest.takeWhile (fun c => c != '\n')).isEmpty then none
              else some ⟨rest.takeWhile (fun c => c != '\n')⟩
            else none
        else none
    else none

inductive BemOutcome where
  /-- logged and returned without building anything -/
  | aborted (reason : String)
  | builtChapter (chapter : Chapter)
  | builtSegment (segment : Segment)
deriving DecidableEq

/-- Embedding of build_episode_menu up to the located node; the build_entry
rendering calls are host callbacks outside the core, and include_segments /
segment_option only select which located entries are rendered. `fetch` is
`none` when open_url/json.loads failed — the try/except of lines 934-939
absorbs the exception and the function returns cleanly. -/
def build_episode_menu (fetch : Option BemComposition) (videoId : String) :
    BemOutcome :=
  match fetch with
  | none => .aborted "cannot open media json"
  | some resp =>
    match matchIdRegex resp.chapterUrn with
    | none => .aborted "no valid chapter urn"
    | some cid =>
      match resp.chapterList.find? (fun c => c.id.getD "" == cid) with
      | none => .aborted "no chapter id found"
      | some chapter =>
        if videoId == cid then .builtChapter chapter
        else
          match (matchIdRegex resp.segmentUrn).bind
              (fun sid => chapter.segmentList.find? (fun s => s.id.getD "" == sid)) with
          | none => .aborted "no segment id found"
          | some seg => .builtSegment seg

theorem splitFirst_nil (c : Char) : splitFirst c [] = none := rfl

theorem splitFirst_cons (c x : Char) (xs : List Char) :
    splitFirst c (x :: xs) =
      if x = c then some ([], xs)
      else (splitFirst c xs).map (fun p => (x :: p.1, p.2)) := rfl

theorem splitFirst_eq_none {c : Char} {l : List Char} (h : c ∉ l) :
    splitFirst c l = none := by
  induction l with
  | nil => rfl
  | cons x xs ih =>
    have hx : ¬ x = c := by
      intro hx; subst hx; exact h (List.mem_cons_self x xs)
    rw [splitFirst_cons, if_neg hx, ih (fun hm => h (List.mem_cons_of_mem x hm))]
    rfl

theorem splitFirst_append {c : Char} {a : List Char} (b : List Char) (h : c ∉ a) :
    splitFirst c (a ++ c :: b) = some (a, b) := by
  induction a with
  | nil => simp [splitFirst_cons]
  | cons x xs ih =>
    have hx : ¬ x = c := by
      intro hx; subst hx; exact h (List.mem_cons_self x xs)
    rw [List.cons_append, splitFirst_cons, if_neg hx,
      ih (fun hm => h (List.mem_cons_of_mem x hm))]
    rfl

theorem splitFirst_eq_some {c : Char} {l a b : List Char}
    (h : splitFirst c l = some (a, b)) : l = a ++ c :: b ∧ c ∉ a := by
  induction l generalizing a with
  | nil => simp [splitFirst_nil] at h
  | cons x xs ih =>
    rw [splitFirst_cons] at h
    by_cases hx : x = c
    · rw [if_pos hx] at h
      simp only [Option.some.injEq, Prod.mk.injEq] at h
      obtain ⟨ha, hb⟩ := h
      subst hx; subst hb; subst ha
      exact ⟨rfl, by simp⟩
    · rw [if_neg hx] at h
      match hs : splitFirst c xs with
      | none => rw [hs] at h; simp at h
      | some (a0, b0) =>
        rw [hs] at h
        have h2 : (x :: a0, b0) = (a, b) := Option.some.inj h
        have ha := congrArg Prod.fst h2
        have hb := congrArg Prod.snd h2
        simp only at ha hb
        obtain ⟨hl, hn⟩ := ih (hb ▸ hs)
        constructor
        · rw [← ha, List.cons_append, hl]
        · rw [← ha]
          intro hm
          rcases List.mem_cons.mp hm with h1 | h2
          · exact hx h1.symm
          · exact hn h2

/-- Every character of every chunk produced by `splitOnP` fails the predicate
and comes from the original list. -/
theorem splitOnP_chunks {α : Type} {p : α → Bool} (xs : List α) :
    ∀ l ∈ xs.splitOnP p, ∀ c ∈ l, p c = false ∧ c ∈ xs := by
  induction xs with
  | nil =>
    intro l hl c hc
    rw [List.splitOnP_nil] at hl
    rcases List.mem_singleton.mp hl with h
    subst h
    simp at hc
  | cons x xs ih =>
    intro l hl c hc
    rw [List.splitOnP_cons] at hl
    by_cases hx : p x = true
    · rw [if_pos hx] at hl
      rcases List.mem_cons.mp hl with h | h
      · subst h; simp at hc
      · obtain ⟨h1, h2⟩ := ih l h c hc
        exact ⟨h1, List.mem_cons_of_mem x h2⟩
    · rw [if_neg hx] at hl
      obtain ⟨hd, tl, he⟩ : ∃ hd tl, xs.splitOnP p = hd :: tl := by
        cases e : xs.splitOnP p with
        | nil => exact absurd e (List.splitOnP_ne_nil p xs)
        | cons hd tl => exact ⟨hd, tl, rfl⟩
      rw [he, List.modifyHead_cons] at hl
      rcases List.mem_cons.mp hl with h | h
      · subst h
        rcases List.mem_cons.mp hc with h1 | h1
        · subst h1
          exact ⟨Bool.eq_false_iff.mpr hx, List.mem_cons_self c xs⟩
        · obtain ⟨h2, h3⟩ := ih hd (he ▸ List.mem_cons_self hd tl) c h1
          exact ⟨h2, List.mem_cons_of_mem x h3⟩
      · obtain ⟨h2, h3⟩ := ih l (he ▸ List.mem_cons_of_mem hd h) c hc
        exact ⟨h2, List.mem_cons_of_mem x h3⟩

theorem splitOn_chunk_not_mem {xs l : List Char} {a : Char}
    (hl : l ∈ xs.splitOn a) : a ∉ l := by
  intro hc
  have := (splitOnP_chunks xs l hl a hc).1
  simp at this

theorem splitOn_chunk_subset {xs l : List Char} {a c : Char}
    (hl : l ∈ xs.splitOn a) (hc : c ∈ l) : c ∈ xs :=
  (splitOnP_chunks xs l hl c hc).2

/-- helper: a `filterMap` that fixes every element of a list is the identity. -/
theorem filterMap_fixes {α : Type} {f : α → Option α} {l : List α}
    (h : ∀ x ∈ l, f x = some x) : l.filterMap f = l := by
  induction l with
  | nil => rfl
  | cons x xs ih =>
    rw [List.filterMap_cons, h x (List.mem_cons_self x xs),
      ih (fun y hy => h y (List.mem_cons_of_mem x hy))]

theorem qslChunk_pair {p : List Char × List Char} (h : wfPair p) :
    qslChunk (p.1 ++ '=' :: p.2) = some p := by
  obtain ⟨_, h2, _, h4⟩ := h
  have hne : p.1 ++ '=' :: p.2 ≠ [] := by simp
  rw [qslChunk, if_neg hne, splitFirst_append p.2 h2, Option.some_bind, if_neg h4]

/-- `parse_qsl` is a left inverse of `assemble_query_string` on well-formed
pair lists. -/
theorem parse_qsl_assemble {ps : List (List Char × List Char)}
    (h : ∀ p ∈ ps, wfPair p) : parse_qsl (assemble_query_string ps) = ps := by
  cases ps with
  | nil => rfl
  | cons q qs =>
    rw [parse_qsl, assemble_query_string,
      List.splitOn_intercalate ((q :: qs).map (fun p => p.1 ++ '=' :: p.2)) '&'
        (by
          intro l hl hc
          obtain ⟨p, hp, he⟩ := List.mem_map.mp hl
          obtain ⟨w1, _, w3, _⟩ := h p hp
          subst he
          rcases List.mem_append.mp hc with h1 | h1
          · exact w1 h1
          · rcases List.mem_cons.mp h1 with h2 | h2
            · simp at h2
            · exact w3 h2)
        (by simp),
      List.filterMap_map]
    exact filterMap_fixes (fun p hp => qslChunk_pair (h p hp))

/-- Inversion for `qslChunk`. -/
theorem qslChunk_eq_some {chunk : List Char} {p : List Char × List Char}
    (h : qslChunk chunk = some p) :
    chunk = p.1 ++ '=' :: p.2 ∧ '=' ∉ p.1 ∧ p.2 ≠ [] := by
  rw [qslChunk] at h
  by_cases he : chunk = []
  · rw [if_pos he] at h; simp at h
  · rw [if_neg he] at h
    match hs : splitFirst '=' chunk with
    | none => rw [hs] at h; simp at h
    | some (n, v) =>
      rw [hs, Option.some_bind] at h
      by_cases hv : v = []
      · rw [if_pos hv] at h; simp at h
      · rw [if_neg hv] at h
        obtain rfl : (n, v) = p := Option.some.inj h
        obtain ⟨hl, hn⟩ := splitFirst_eq_some hs
        exact ⟨hl, hn, hv⟩

/-- Every pair output by `parse_qsl` is well-formed. -/
theorem parse_qsl_wf {qs : List Char} {p : List Char × List Char}
    (h : p ∈ parse_qsl qs) : wfPair p := by
  obtain ⟨chunk, hc, hf⟩ := List.mem_filterMap.mp h
  obtain ⟨hl, hn, hv⟩ := qslChunk_eq_some hf
  have hamp : ('&' : Char) ∉ chunk := splitOn_chunk_not_mem hc
  subst hl
  exact ⟨fun hm => hamp (List.mem_append.mpr (Or.inl hm)), hn,
    fun hm => hamp (List.mem_append.mpr (Or.inr (List.mem_cons_of_mem _ hm))), hv⟩

/-- Every character inside a `parse_qsl` output pair occurs in the query. -/
theorem parse_qsl_chars {qs : List Char} {p : List Char × List Char} {c : Char}
    (h : p ∈ parse_qsl qs) (hc : c ∈ p.1 ∨ c ∈ p.2) : c ∈ qs := by
  obtain ⟨chunk, hcm, hf⟩ := List.mem_filterMap.mp h
  obtain ⟨hl, _, _⟩ := qslChunk_eq_some hf
  subst hl
  refine splitOn_chunk_subset hcm ?_
  rcases hc with h1 | h1
  · exact List.mem_append.mpr (Or.inl h1)
  · exact List.mem_append.mpr (Or.inr (List.mem_cons_of_mem _ h1))

/-! ### Supporting lemmas for the URL round trip -/

theorem uint32_le_iff_toNat_le {a b : UInt32} : a ≤ b ↔ a.toNat ≤ b.toNat := by
  rw [UInt32.le_def, BitVec.le_def]
  exact Iff.rfl

theorem charToNat_ofNat_small {n : Nat} (h : n < 55296) : (Char.ofNat n).toNat = n := by
  have hv : n.isValidChar := Or.inl h
  simp only [Char.ofNat, hv, dite_true, Char.ofNatAux, Char.toNat]
  simp [UInt32.toNat, UInt32.ofNat', Nat.mod_eq_of_lt (by omega : n < 4294967296)]

theorem charToLower_eq (c : Char) :
    Char.toLower c = if c.toNat ≥ 65 ∧ c.toNat ≤ 90 then Char.ofNat (c.toNat + 32) else c := rfl

theorem charToLower_idem (c : Char) :
    Char.toLower (Char.toLower c) = Char.toLower c := by
  rw [charToLower_eq c]
  by_cases h : c.toNat ≥ 65 ∧ c.toNat ≤ 90
  · rw [if_pos h, charToLower_eq]
    have h2 : (Char.ofNat (c.toNat + 32)).toNat = c.toNat + 32 :=
      charToNat_ofNat_small (by omega)
    rw [if_neg (by rw [h2]; omega)]
  · rw [if_neg h, charToLower_eq, if_neg h]

theorem char_isLower_of_toNat {c : Char} (h1 : 97 ≤ c.toNat) (h2 : c.toNat ≤ 122) :
    c.isLower = true := by
  simp only [Char.isLower, Bool.and_eq_true, decide_eq_true_eq]
  constructor
  · exact uint32_le_iff_toNat_le.mpr (by exact h1)
  · exact uint32_le_iff_toNat_le.mpr (by exact h2)

theorem isSchemeChar_toLower {c : Char} (h : isSchemeChar c = true) :
    isSchemeChar (Char.toLower c) = true := by
  rw [charToLower_eq c]
  by_cases hc : c.toNat ≥ 65 ∧ c.toNat ≤ 90
  · rw [if_pos hc]
    have h2 : (Char.ofNat (c.toNat + 32)).toNat = c.toNat + 32 :=
      charToNat_ofNat_small (by omega)
    have : (Char.ofNat (c.toNat + 32)).isLower = true :=
      char_isLower_of_toNat (by omega) (by omega)
    simp [isSchemeChar, Char.isAlpha, this]
  · rw [if_neg hc]
    exact h

theorem takeNetloc_nil : takeNetloc [] = ([], []) := rfl

theorem takeNetloc_cons (x : Char) (xs : List Char) :
    takeNetloc (x :: xs) =
      if netlocDelim x then ([], x :: xs)
      else ((takeNetloc xs).1.cons x, (takeNetloc xs).2) := rfl

/-- The first component of `takeNetloc` contains no delimiter. -/
theorem takeNetloc_fst_no_delim (l : List Char) :
    ∀ c ∈ (takeNetloc l).1, netlocDelim c = false := by
  induction l with
  | nil => intro c hc; simp [takeNetloc_nil] at hc
  | cons x xs ih =>
    intro c hc
    rw [takeNetloc_cons] at hc
    by_cases hx : netlocDelim x = true
    · rw [if_pos hx] at hc; simp at hc
    · rw [if_neg hx] at hc
      rcases List.mem_cons.mp hc with h | h
      · subst h; exact Bool.eq_false_iff.mpr hx
      · exact ih c h

/-- The second component of `takeNetloc` is empty or starts at a delimiter. -/
theorem takeNetloc_snd (l : List Char) :
    (takeNetloc l).2 = [] ∨
      ∃ c t, (takeNetloc l).2 = c :: t ∧ netlocDelim c = true := by
  induction l with
  | nil => left; rfl
  | cons x xs ih =>
    rw [takeNetloc_cons]
    by_cases hx : netlocDelim x = true
    · rw [if_pos hx]; exact Or.inr ⟨x, xs, rfl, hx⟩
    · rw [if_neg hx]; exact ih

/-- `takeNetloc` undoes the concatenation of a delimiter-free netloc with an
empty-or-delimiter-headed remainder. -/
theorem takeNetloc_append {n r : List Char}
    (hn : ∀ c ∈ n, netlocDelim c = false)
    (hr : r = [] ∨ ∃ c t, r = c :: t ∧ netlocDelim c = true) :
    takeNetloc (n ++ r) = (n, r) := by
  induction n with
  | nil =>
    rcases hr with h | ⟨c, t, he, hd⟩
    · subst h; rfl
    · subst he; rw [List.nil_append, takeNetloc_cons, if_pos hd]
  | cons x xs ih =>
    have hx : netlocDelim x = false := hn x (List.mem_cons_self x xs)
    rw [List.cons_append, takeNetloc_cons, if_neg (by simp [hx]),
      ih (fun c hc => hn c (List.mem_cons_of_mem x hc))]

theorem splitLastSlash_nil : splitLastSlash [] = none := rfl

theorem splitLastSlash_cons (x : Char) (xs : List Char) :
    splitLastSlash (x :: xs) =
      match splitLastSlash xs with
      | some p => some (x :: p.1, p.2)
      | none => if x = '/' then some ([], xs) else none := rfl

theorem splitLastSlash_eq_none {l : List Char} (h : splitLastSlash l = none) :
    '/' ∉ l := by
  induction l with
  | nil => simp
  | cons x xs ih =>
    rw [splitLastSlash_cons] at h
    match hs : splitLastSlash xs with
    | some p => rw [hs] at h; simp at h
    | none =>
      rw [hs] at h
      by_cases hx : x = '/'
      · rw [if_pos hx] at h; simp at h
      · rw [if_neg hx] at h
        intro hm
        rcases List.mem_cons.mp hm with h1 | h1
        · exact hx h1.symm
        · exact ih hs h1

theorem splitLastSlash_no_slash {l : List Char} (h : '/' ∉ l) :
    splitLastSlash l = none := by
  induction l with
  | nil => rfl
  | cons x xs ih =>
    have hx : ¬ x = '/' := by
      intro hx; subst hx; exact h (List.mem_cons_self _ xs)
    rw [splitLastSlash_cons, ih (fun hm => h (List.mem_cons_of_mem x hm)),
      if_neg hx]

theorem splitLastSlash_append {a b : List Char} (h : '/' ∉ b) :
    splitLastSlash (a ++ '/' :: b) = some (a, b) := by
  induction a with
  | nil => rw [List.nil_append, splitLastSlash_cons, splitLastSlash_no_slash h, if_pos rfl]
  | cons x xs ih => rw [List.cons_append, splitLastSlash_cons, ih]

theorem splitLastSlash_eq_some {l a b : List Char}
    (h : splitLastSlash l = some (a, b)) : l = a ++ '/' :: b ∧ '/' ∉ b := by
  induction l generalizing a with
  | nil => simp [splitLastSlash_nil] at h
  | cons x xs ih =>
    rw [splitLastSlash_cons] at h
    match hs : splitLastSlash xs with
    | some (a0, b0) =>
      rw [hs] at h
      have h2 : (x :: a0, b0) = (a, b) := Option.some.inj h
      have ha := congrArg Prod.fst h2
      have hb := congrArg Prod.snd h2
      simp only at ha hb
      obtain ⟨hl, hn⟩ := ih (hb ▸ hs)
      constructor
      · rw [← ha, List.cons_append, hl]
      · exact hn
    | none =>
      rw [hs] at h
      by_cases hx : x = '/'
      · rw [if_pos hx] at h
        have h2 : (([] : List Char), xs) = (a, b) := Option.some.inj h
        have ha := congrArg Prod.fst h2
        have hb := congrArg Prod.snd h2
        simp only at ha hb
        subst hx; subst hb
        rw [← ha]
        exact ⟨rfl, splitLastSlash_eq_none hs⟩
      · rw [if_neg hx] at h; simp at h

theorem lastSeg_subset {l : List Char} {c : Char} (h : c ∈ lastSeg l) : c ∈ l := by
  rcases hs : splitLastSlash l with - | p
  · rw [lastSeg, hs] at h
    exact h
  · rw [lastSeg, hs] at h
    obtain ⟨hl, -⟩ := splitLastSlash_eq_some hs
    rw [hl]
    exact List.mem_append.mpr (Or.inr (List.mem_cons_of_mem _ h))

theorem lastSeg_no_slash {l : List Char} (h : '/' ∉ l) : lastSeg l = l := by
  rw [lastSeg, splitLastSlash_no_slash h]

theorem lastSeg_append {a b : List Char} (h : '/' ∉ b) :
    lastSeg (a ++ '/' :: b) = b := by
  rw [lastSeg, splitLastSlash_append h]

/-- `splitparams` then `combineParams` recovers a prefix of the input
(everything except a possibly dropped empty-parameter tail). -/
theorem splitparams_recombine (u : List Char) :
    ∃ t, u = combineParams (splitparams u).1 (splitparams u).2 ++ t := by
  by_cases hu : (';' : Char) ∈ u
  · rcases hs : splitLastSlash u with - | p
    · rcases hq : splitFirst ';' u with - | q
      · simp only [splitparams, if_pos hu, hs, hq]
        exact ⟨[], by rw [combineParams, if_pos rfl, List.append_nil]⟩
      · simp only [splitparams, if_pos hu, hs, hq]
        obtain ⟨hl2, -⟩ := splitFirst_eq_some hq
        by_cases hq2 : q.2 = []
        · exact ⟨[';'], by rw [combineParams, if_pos hq2, hl2, hq2]⟩
        · exact ⟨[], by rw [combineParams, if_neg hq2, List.append_nil]; exact hl2⟩
    · obtain ⟨hl, hsl⟩ := splitLastSlash_eq_some hs
      rcases hq : splitFirst ';' p.2 with - | q
      · simp only [splitparams, if_pos hu, hs, hq]
        exact ⟨[], by rw [combineParams, if_pos rfl, List.append_nil]⟩
      · simp only [splitparams, if_pos hu, hs, hq]
        obtain ⟨hl2, -⟩ := splitFirst_eq_some hq
        by_cases hq2 : q.2 = []
        · refine ⟨[';'], ?_⟩
          rw [combineParams, if_pos hq2, hl, hl2, hq2]
          simp
        · refine ⟨[], ?_⟩
          rw [combineParams, if_neg hq2, hl, hl2]
          simp
  · simp only [splitparams, if_neg hu]
    exact ⟨[], by rw [combineParams, if_pos rfl, List.append_nil]⟩

/-- Round trip: `splitparams` undoes `combineParams` whenever the last path
segment has no `;` and the parameters contain no `/`. -/
theorem splitparams_combine {path ps : List Char}
    (h7 : ';' ∉ lastSeg path) (h4 : '/' ∉ ps) :
    splitparams (combineParams path ps) = (path, ps) := by
  by_cases hp : ps = []
  · subst hp
    rw [combineParams, if_pos rfl]
    by_cases hs : (';' : Char) ∈ path
    · rcases hsl : splitLastSlash path with - | p
      · have : '/' ∉ path := splitLastSlash_eq_none hsl
        rw [lastSeg_no_slash this] at h7
        exact absurd hs h7
      · obtain ⟨hl, hslb⟩ := splitLastSlash_eq_some hsl
        have hseg : lastSeg path = p.2 := by rw [hl, lastSeg_append hslb]
        simp only [splitparams, if_pos hs, hsl, splitFirst_eq_none (hseg ▸ h7)]
    · simp only [splitparams, if_neg hs]
  · rw [combineParams, if_neg hp]
    have hmem : (';' : Char) ∈ path ++ ';' :: ps :=
      List.mem_append.mpr (Or.inr (List.mem_cons_self _ _))
    by_cases hsl : '/' ∈ path
    · obtain ⟨p, hp2⟩ : ∃ p, splitLastSlash path = some p := by
        cases e : splitLastSlash path with
        | none => exact absurd (splitLastSlash_eq_none e) (by simp [hsl])
        | some p => exact ⟨p, rfl⟩
      obtain ⟨hl, hslb⟩ := splitLastSlash_eq_some hp2
      have hseg : lastSeg path = p.2 := by rw [hl, lastSeg_append hslb]
      have hb2 : '/' ∉ p.2 ++ ';' :: ps := by
        intro hm
        rcases List.mem_append.mp hm with h | h
        · exact hslb h
        · rcases List.mem_cons.mp h with h | h
          · simp at h
          · exact h4 h
      have hsplit : splitLastSlash (path ++ ';' :: ps) = some (p.1, p.2 ++ ';' :: ps) := by
        rw [hl, List.append_assoc, List.cons_append]
        exact splitLastSlash_append hb2
      simp only [splitparams, if_pos hmem, hsplit,
        splitFirst_append ps (hseg ▸ h7)]
      rw [← hl]
    · have hb2 : '/' ∉ path ++ ';' :: ps := by
        intro hm
        rcases List.mem_append.mp hm with h | h
        · exact hsl h
        · rcases List.mem_cons.mp h with h | h
          · simp at h
          · exact h4 h
      simp only [splitparams, if_pos hmem, splitLastSlash_no_slash hb2,
        splitFirst_append ps (lastSeg_no_slash hsl ▸ h7)]

theorem splitFirst_none_not_mem {c : Char} {l : List Char}
    (h : splitFirst c l = none) : c ∉ l := by
  induction l with
  | nil => simp
  | cons x xs ih =>
    rw [splitFirst_cons] at h
    by_cases hx : x = c
    · rw [if_pos hx] at h; simp at h
    · rw [if_neg hx] at h
      intro hm
      rcases List.mem_cons.mp hm with h1 | h1
      · exact hx h1.symm
      · match hs : splitFirst c xs with
        | some p => rw [hs] at h; simp at h
        | none => exact ih hs h1

theorem schemeChar_not_colon : isSchemeChar ':' = false := by decide

theorem schemeChar_not_slash : isSchemeChar '/' = false := by decide

theorem all_schemeChar_not_mem_colon {l : List Char}
    (h : l.all isSchemeChar = true) : ':' ∉ l := by
  intro hm
  have := List.all_eq_true.mp h ':' hm
  rw [schemeChar_not_colon] at this
  exact Bool.false_ne_true this

/-- Two decompositions of the same list at a colon: either the prefixes agree
or the first prefix contains a colon itself. -/
theorem colon_split_cases {a b pre post : List Char}
    (h : a ++ ':' :: b = pre ++ ':' :: post) (hpre : ':' ∉ pre) :
    a = pre ∨ ':' ∈ a := by
  induction pre generalizing a with
  | nil =>
    cases a with
    | nil => exact Or.inl rfl
    | cons x a0 =>
      rw [List.cons_append, List.nil_append] at h
      obtain ⟨hx, -⟩ := List.cons.inj h
      exact Or.inr (hx ▸ List.mem_cons_self x a0)
  | cons p pre0 ih =>
    cases a with
    | nil =>
      rw [List.nil_append, List.cons_append] at h
      obtain ⟨hx, -⟩ := List.cons.inj h
      exact absurd (hx ▸ List.mem_cons_self p pre0) hpre
    | cons x a0 =>
      rw [List.cons_append, List.cons_append] at h
      obtain ⟨hx, ht⟩ := List.cons.inj h
      rcases ih ht (fun hm => hpre (List.mem_cons_of_mem p hm)) with h1 | h1
      · exact Or.inl (by rw [hx, h1])
      · exact Or.inr (List.mem_cons_of_mem x h1)

theorem nsp_nil : noSchemePrefix [] := by
  intro a b hab
  exact absurd hab.symm (by simp)

theorem nsp_head {x : Char} {l : List Char} (hx : isSchemeChar x = false) :
    noSchemePrefix (x :: l) := by
  intro a b hab
  cases a with
  | nil => exact Or.inl rfl
  | cons y a0 =>
    rw [List.cons_append] at hab
    obtain ⟨hy, -⟩ := List.cons.inj hab
    refine Or.inr (fun hall => ?_)
    have := List.all_eq_true.mp hall y (List.mem_cons_self y a0)
    rw [← hy, hx] at this
    exact Bool.false_ne_true this

theorem nsp_prefix {l t : List Char} (h : noSchemePrefix (l ++ t)) :
    noSchemePrefix l := by
  intro a b hab
  exact h a (b ++ t) (by rw [hab]; simp)

/-- Extending on the right by an empty or `?`/`#`-headed remainder preserves
the absence of a scheme-like prefix. -/
theorem nsp_extend {l r : List Char} (hl : noSchemePrefix l)
    (hr : ∀ x t, r = x :: t → x = '?' ∨ x = '#') :
    noSchemePrefix (l ++ r) := by
  intro a b hab
  rcases List.append_eq_append_iff.mp hab.symm with ⟨k, hk1, hk2⟩ | ⟨k, hk1, hk2⟩
  · -- l = a ++ k, k ++ r = ':' :: b
    cases k with
    | nil =>
      rcases hr ':' b hk2.symm with h1 | h1 <;> simp at h1
    | cons y k0 =>
      rw [List.cons_append] at hk2
      obtain ⟨hy, -⟩ := List.cons.inj hk2.symm
      exact hl a k0 (by rw [hk1, ← hy])
  · -- a = l ++ k, r = k ++ ':' :: b
    cases k with
    | nil =>
      rcases hr ':' b (by simpa using hk2) with h1 | h1 <;> simp at h1
    | cons y k0 =>
      rw [List.cons_append] at hk2
      refine Or.inr (fun hall => ?_)
      have hy : y = '?' ∨ y = '#' := hr y (k0 ++ ':' :: b) hk2
      have hmem : y ∈ a := by
        rw [hk1]
        exact List.mem_append.mpr (Or.inr (List.mem_cons_self y k0))
      have := List.all_eq_true.mp hall y hmem
      rcases hy with h1 | h1 <;> rw [h1] at this <;> exact absurd this (by decide)

theorem splitScheme_of_nsp {u : List Char} (h : noSchemePrefix u) :
    splitScheme u = ([], u) := by
  rcases hf : splitFirst ':' u with - | p
  · simp [splitScheme, hf]
  · obtain ⟨hu, -⟩ := splitFirst_eq_some hf
    rcases h p.1 p.2 hu with h1 | h1
    · simp only [splitScheme, hf]
      rw [if_neg (fun hc => hc.1 h1)]
    · simp only [splitScheme, hf]
      rw [if_neg (fun hc => h1 hc.2)]

theorem splitScheme_append {s r : List Char} (hne : s ≠ [])
    (hall : s.all isSchemeChar = true) :
    splitScheme (s ++ ':' :: r) = (s.map Char.toLower, r) := by
  simp only [splitScheme,
    splitFirst_append r (all_schemeChar_not_mem_colon hall)]
  rw [if_pos ⟨hne, hall⟩]

/-- What `splitScheme` returns when its scheme component is empty. -/
theorem splitScheme_fst_nil {u : List Char} (h : (splitScheme u).1 = []) :
    (splitScheme u).2 = u ∧ noSchemePrefix u := by
  rcases hf : splitFirst ':' u with - | p
  · refine ⟨by simp [splitScheme, hf], ?_⟩
    intro a b hab
    exact absurd
      (hab ▸ List.mem_append.mpr (Or.inr (List.mem_cons_self _ _)) : ':' ∈ u)
      (splitFirst_none_not_mem hf)
  · obtain ⟨hu, hnc⟩ := splitFirst_eq_some hf
    by_cases hc : p.1 ≠ [] ∧ p.1.all isSchemeChar
    · exfalso
      have : (splitScheme u).1 = p.1.map Char.toLower := by
        simp only [splitScheme, hf]
        rw [if_pos hc]
      rw [this] at h
      exact hc.1 (List.map_eq_nil_iff.mp h)
    · have hsc : splitScheme u = ([], u) := by
        simp only [splitScheme, hf]
        rw [if_neg hc]
      refine ⟨by rw [hsc], ?_⟩
      intro a b hab
      rcases colon_split_cases (hab ▸ hu : a ++ ':' :: b = p.1 ++ ':' :: p.2) hnc
        with h1 | h1
      · by_cases hp1 : a = []
        · exact Or.inl hp1
        · exact Or.inr (fun hall => hc ⟨h1 ▸ hp1, h1 ▸ hall⟩)
      · refine Or.inr (fun hall => ?_)
        have := List.all_eq_true.mp hall ':' h1
        rw [schemeChar_not_colon] at this
        exact Bool.false_ne_true this

/-- Either `splitScheme` finds no scheme, or it lowercases a nonempty
all-scheme-character prefix. -/
theorem splitScheme_cases (u : List Char) :
    splitScheme u = ([], u) ∨
      ∃ pre post, splitFirst ':' u = some (pre, post) ∧ pre ≠ [] ∧
        pre.all isSchemeChar = true ∧
        splitScheme u = (pre.map Char.toLower, post) := by
  rcases hf : splitFirst ':' u with - | ⟨pre, post⟩
  · exact Or.inl (by simp [splitScheme, hf])
  · by_cases hc : pre ≠ [] ∧ List.all pre isSchemeChar
    · refine Or.inr ⟨pre, post, rfl, hc.1, hc.2, ?_⟩
      simp only [splitScheme, hf]
      rw [if_pos hc]
    · refine Or.inl ?_
      simp only [splitScheme, hf]
      rw [if_neg hc]

/-! Spec lemmas for the fragment, query and netloc steps. -/

theorem splitFragment_no_hash {u : List Char} (h : '#' ∉ u) :
    splitFragment u = (u, []) := by
  rw [splitFragment, splitFirst_eq_none h]

theorem splitFragment_append {a : List Char} (b : List Char) (h : '#' ∉ a) :
    splitFragment (a ++ '#' :: b) = (a, b) := by
  rw [splitFragment, splitFirst_append b h]

/-- Decomposition produced by `splitFragment`. -/
theorem splitFragment_spec (u : List Char) :
    '#' ∉ (splitFragment u).1 ∧
      (u = (splitFragment u).1 ++ '#' :: (splitFragment u).2 ∨
        ((splitFragment u).1 = u ∧ (splitFragment u).2 = [])) := by
  rcases hf : splitFirst '#' u with - | p
  · rw [splitFragment, hf]
    exact ⟨splitFirst_none_not_mem hf, Or.inr ⟨rfl, rfl⟩⟩
  · rw [splitFragment, hf]
    obtain ⟨hu, hn⟩ := splitFirst_eq_some hf
    exact ⟨hn, Or.inl hu⟩

theorem splitQuery_no_qm {u : List Char} (h : '?' ∉ u) :
    splitQuery u = (u, []) := by
  rw [splitQuery, splitFirst_eq_none h]

theorem splitQuery_append {a : List Char} (b : List Char) (h : '?' ∉ a) :
    splitQuery (a ++ '?' :: b) = (a, b) := by
  rw [splitQuery, splitFirst_append b h]

/-- Decomposition produced by `splitQuery`. -/
theorem splitQuery_spec (u : List Char) :
    '?' ∉ (splitQuery u).1 ∧
      (u = (splitQuery u).1 ++ '?' :: (splitQuery u).2 ∨
        ((splitQuery u).1 = u ∧ (splitQuery u).2 = [])) := by
  rcases hf : splitFirst '?' u with - | p
  · rw [splitQuery, hf]
    exact ⟨splitFirst_none_not_mem hf, Or.inr ⟨rfl, rfl⟩⟩
  · rw [splitQuery, hf]
    obtain ⟨hu, hn⟩ := splitFirst_eq_some hf
    exact ⟨hn, Or.inl hu⟩

theorem takeNetloc_decomp (l : List Char) :
    (takeNetloc l).1 ++ (takeNetloc l).2 = l := by
  induction l with
  | nil => rfl
  | cons x xs ih =>
    rw [takeNetloc_cons]
    by_cases hx : netlocDelim x = true
    · rw [if_pos hx]
      rfl
    · rw [if_neg hx]
      simp only [List.cons_append]
      rw [ih]

/-- `splitparams` never puts a slash in the parameter component. -/
theorem splitparams_params_no_slash (u : List Char) :
    '/' ∉ (splitparams u).2 := by
  by_cases hu : (';' : Char) ∈ u
  · rcases hs : splitLastSlash u with - | p
    · rcases hq : splitFirst ';' u with - | q
      · simp only [splitparams, if_pos hu, hs, hq]
        simp
      · simp only [splitparams, if_pos hu, hs, hq]
        obtain ⟨hl2, -⟩ := splitFirst_eq_some hq
        have hnos : '/' ∉ u := splitLastSlash_eq_none hs
        intro hm
        exact hnos (hl2 ▸
          List.mem_append.mpr (Or.inr (List.mem_cons_of_mem _ hm)))
    · obtain ⟨-, hsl⟩ := splitLastSlash_eq_some hs
      rcases hq : splitFirst ';' p.2 with - | q
      · simp only [splitparams, if_pos hu, hs, hq]
        simp
      · simp only [splitparams, if_pos hu, hs, hq]
        obtain ⟨hl2, -⟩ := splitFirst_eq_some hq
        intro hm
        exact hsl (hl2 ▸
          List.mem_append.mpr (Or.inr (List.mem_cons_of_mem _ hm)))
  · simp only [splitparams, if_neg hu]
    simp

/-- The last segment of the path component of `splitparams` has no `;`. -/
theorem splitparams_lastSeg (u : List Char) :
    ';' ∉ lastSeg (splitparams u).1 := by
  by_cases hu : (';' : Char) ∈ u
  · rcases hs : splitLastSlash u with - | p
    · have hnos : '/' ∉ u := splitLastSlash_eq_none hs
      rcases hq : splitFirst ';' u with - | q
      · exact absurd hu (splitFirst_none_not_mem hq)
      · simp only [splitparams, if_pos hu, hs, hq]
        obtain ⟨hl2, hn2⟩ := splitFirst_eq_some hq
        have : '/' ∉ q.1 := fun hm =>
          hnos (hl2 ▸ List.mem_append.mpr (Or.inl hm))
        rw [lastSeg_no_slash this]
        exact hn2
    · obtain ⟨hl, hsl⟩ := splitLastSlash_eq_some hs
      rcases hq : splitFirst ';' p.2 with - | q
      · simp only [splitparams, if_pos hu, hs, hq]
        rw [hl, lastSeg_append hsl]
        exact splitFirst_none_not_mem hq
      · simp only [splitparams, if_pos hu, hs, hq]
        obtain ⟨hl2, hn2⟩ := splitFirst_eq_some hq
        have : '/' ∉ q.1 := fun hm =>
          hsl (hl2 ▸ List.mem_append.mpr (Or.inl hm))
        rw [lastSeg_append this]
        exact hn2
  · simp only [splitparams, if_neg hu]
    intro hm
    exact hu (lastSeg_subset hm)

theorem splitNetloc_fst_no_delim (u : List Char) :
    ∀ c ∈ (splitNetloc u).1, netlocDelim c = false := by
  rw [splitNetloc]
  by_cases h2 : u.take 2 = ['/', '/']
  · rw [if_pos h2]
    exact takeNetloc_fst_no_delim (u.drop 2)
  · rw [if_neg h2]
    intro c hc
    simp at hc

theorem splitNetloc_fst_ne {u : List Char} (h : (splitNetloc u).1 ≠ []) :
    (splitNetloc u).2 = [] ∨
      ∃ c t, (splitNetloc u).2 = c :: t ∧ netlocDelim c = true := by
  rw [splitNetloc] at h ⊢
  by_cases h2 : u.take 2 = ['/', '/']
  · rw [if_pos h2] at h ⊢
    exact takeNetloc_snd (u.drop 2)
  · rw [if_neg h2] at h
    exact absurd rfl h

theorem splitNetloc_cases (u : List Char) :
    splitNetloc u = ([], u) ∨
      (u = '/' :: '/' :: ((splitNetloc u).1 ++ (splitNetloc u).2) ∧
        ((splitNetloc u).2 = [] ∨
          ∃ c t, (splitNetloc u).2 = c :: t ∧ netlocDelim c = true)) := by
  by_cases h2 : u.take 2 = ['/', '/']
  · refine Or.inr ⟨?_, ?_⟩
    · rw [splitNetloc, if_pos h2, takeNetloc_decomp]
      cases u with
      | nil => simp at h2
      | cons a u1 =>
        cases u1 with
        | nil => simp at h2
        | cons b u2 =>
          simp only [List.take, List.cons.injEq] at h2
          obtain ⟨rfl, rfl, -⟩ := h2
          rfl
    · rw [splitNetloc, if_pos h2]
      exact takeNetloc_snd (u.drop 2)
  · exact Or.inl (by rw [splitNetloc, if_neg h2])

theorem splitFragment_nil : splitFragment [] = ([], []) := rfl

theorem splitQuery_nil : splitQuery [] = ([], []) := rfl

theorem splitparams_nil : splitparams [] = ([], []) := by
  rw [splitparams, if_neg (by simp)]

theorem splitFragment_hash_head (t : List Char) :
    splitFragment ('#' :: t) = ([], t) := by
  rw [splitFragment, splitFirst_cons, if_pos rfl]

theorem splitQuery_qm_head (t : List Char) :
    splitQuery ('?' :: t) = ([], t) := by
  rw [splitQuery, splitFirst_cons, if_pos rfl]

theorem append_head_cases {l r : List Char} {x : Char}
    (h : (l ++ r).head? = some x) : l = [] ∨ l.head? = some x := by
  cases l with
  | nil => exact Or.inl rfl
  | cons y l0 => exact Or.inr (by simpa using h)

theorem combineParams_eq_nil {path ps : List Char}
    (h : combineParams path ps = []) : path = [] ∧ ps = [] := by
  rw [combineParams] at h
  by_cases hp : ps = []
  · rw [if_pos hp] at h
    exact ⟨h, hp⟩
  · rw [if_neg hp] at h
    exact absurd h (by simp)

theorem combineParams_head {path ps : List Char} {x : Char}
    (h : (combineParams path ps).head? = some x) (hx : x ≠ ';') :
    path.head? = some x := by
  rw [combineParams] at h
  by_cases hp : ps = []
  · rw [if_pos hp] at h
    exact h
  · rw [if_neg hp] at h
    rcases append_head_cases h with h1 | h1
    · subst h1
      simp only [List.nil_append, List.head?_cons, Option.some.injEq] at h
      exact absurd h.symm hx
    · exact h1

theorem mem_combineParams_left {path ps : List Char} {c : Char} (h : c ∈ path) :
    c ∈ combineParams path ps := by
  rw [combineParams]
  by_cases hp : ps = []
  · rw [if_pos hp]; exact h
  · rw [if_neg hp]; exact List.mem_append.mpr (Or.inl h)

theorem mem_combineParams_right {path ps : List Char} {c : Char} (h : c ∈ ps) :
    c ∈ combineParams path ps := by
  rw [combineParams]
  by_cases hp : ps = []
  · subst hp; simp at h
  · rw [if_neg hp]
    exact List.mem_append.mpr (Or.inr (List.mem_cons_of_mem _ h))

theorem head_append_left {l r : List Char} (h : l ≠ []) :
    (l ++ r).head? = l.head? := by
  cases l with
  | nil => exact absurd rfl h
  | cons x l0 => rfl

theorem netlocDelim_cases {c : Char} (h : netlocDelim c = true) :
    c = '/' ∨ c = '?' ∨ c = '#' := by
  simpa [netlocDelim, or_assoc] using h

theorem urlps_eq (u : List Char) :
    urlps u = ⟨(splitScheme u).1,
      (splitNetloc (splitScheme u).2).1,
      (splitparams (splitQuery (splitFragment
        (splitNetloc (splitScheme u).2).2).1).1).1,
      (splitparams (splitQuery (splitFragment
        (splitNetloc (splitScheme u).2).2).1).1).2,
      (splitQuery (splitFragment (splitNetloc (splitScheme u).2).2).1).2,
      (splitFragment (splitNetloc (splitScheme u).2).2).2⟩ := rfl

/-- The four inner parsing stages always produce well-formed components. -/
theorem wf_stages {sch rest netl B C frag D qry pth prm : List Char}
    (hnet : splitNetloc rest = (netl, B))
    (hfr : splitFragment B = (C, frag))
    (hq : splitQuery C = (D, qry))
    (hpp : splitparams D = (pth, prm))
    (hsch : sch ≠ [] → sch.all isSchemeChar = true ∧ sch.map Char.toLower = sch)
    (hnsp : sch = [] → noSchemePrefix rest) :
    wfParse ⟨sch, netl, pth, prm, qry, frag⟩ := by
  have hCnh : '#' ∉ C := by
    have := (splitFragment_spec B).1
    rw [hfr] at this
    exact this
  have hBdec : B = C ++ '#' :: frag ∨ (C = B ∧ frag = []) := by
    have := (splitFragment_spec B).2
    rw [hfr] at this
    exact this
  have hDnq : '?' ∉ D := by
    have := (splitQuery_spec C).1
    rw [hq] at this
    exact this
  have hCdec : C = D ++ '?' :: qry ∨ (D = C ∧ qry = []) := by
    have := (splitQuery_spec C).2
    rw [hq] at this
    exact this
  obtain ⟨t0, hrec⟩ : ∃ t0, D = combineParams pth prm ++ t0 := by
    obtain ⟨t0, ht⟩ := splitparams_recombine D
    rw [hpp] at ht
    exact ⟨t0, ht⟩
  have hpns : '/' ∉ prm := by
    have := splitparams_params_no_slash D
    rw [hpp] at this
    exact this
  have hlseg : ';' ∉ lastSeg pth := by
    have := splitparams_lastSeg D
    rw [hpp] at this
    exact this
  have hnetl : ∀ c ∈ netl, netlocDelim c = false := by
    intro c hc
    exact splitNetloc_fst_no_delim rest c (by rw [hnet]; exact hc)
  have hDsubC : ∀ c ∈ D, c ∈ C := by
    intro c hc
    rcases hCdec with h1 | ⟨h1, -⟩
    · rw [h1]; exact List.mem_append.mpr (Or.inl hc)
    · rw [← h1]; exact hc
  have hDnh : '#' ∉ D := fun hm => hCnh (hDsubC _ hm)
  have hcombsub : ∀ c ∈ combineParams pth prm, c ∈ D := by
    intro c hc
    rw [hrec]
    exact List.mem_append.mpr (Or.inl hc)
  have hpthsub : ∀ c ∈ pth, c ∈ D :=
    fun c hc => hcombsub c (mem_combineParams_left hc)
  have hprmsub : ∀ c ∈ prm, c ∈ D :=
    fun c hc => hcombsub c (mem_combineParams_right hc)
  have hchain : ∃ T, combineParams pth prm ++ T = B := by
    rcases hBdec with h1 | ⟨h1, -⟩
    · rcases hCdec with h2 | ⟨h2, -⟩
      · refine ⟨t0 ++ '?' :: qry ++ '#' :: frag, ?_⟩
        rw [h1, h2, hrec]
        simp [List.append_assoc]
      · refine ⟨t0 ++ '#' :: frag, ?_⟩
        rw [h1, ← h2, hrec]
        simp [List.append_assoc]
    · rcases hCdec with h2 | ⟨h2, -⟩
      · refine ⟨t0 ++ '?' :: qry, ?_⟩
        rw [← h1, h2, hrec]
        simp [List.append_assoc]
      · rw [← h1, ← h2, hrec]
        exact ⟨t0, rfl⟩
  simp only [wfParse]
  refine ⟨hsch, hnetl, ?_, ?_, ?_, ?_, hlseg, ?_⟩
  · intro c hc
    have hcD := hpthsub c hc
    exact ⟨fun he => hDnq (he ▸ hcD), fun he => hDnh (he ▸ hcD)⟩
  · intro c hc
    have hcD := hprmsub c hc
    exact ⟨fun he => hDnq (he ▸ hcD), fun he => hDnh (he ▸ hcD),
      fun he => hpns (he ▸ hc)⟩
  · intro hm
    rcases hCdec with h1 | ⟨-, h1⟩
    · refine hCnh ?_
      rw [h1]
      exact List.mem_append.mpr (Or.inr (List.mem_cons_of_mem _ hm))
    · rw [h1] at hm
      simp at hm
  · intro hne
    have hBshape : B = [] ∨ ∃ c t, B = c :: t ∧ netlocDelim c = true := by
      have := @splitNetloc_fst_ne rest (by rw [hnet]; exact hne)
      rw [hnet] at this
      exact this
    obtain ⟨T, hT⟩ := hchain
    rcases hBshape with h1 | ⟨x, t, h1, hx⟩
    · rw [h1] at hT
      exact Or.inl (combineParams_eq_nil (List.append_eq_nil.mp hT).1)
    · match hcp : combineParams pth prm with
      | [] => exact Or.inl (combineParams_eq_nil hcp)
      | y :: r =>
        have hy : y = x := by
          rw [hcp, h1] at hT
          exact (List.cons.inj hT).1
        have hyD : y ∈ D := hcombsub y (by rw [hcp]; exact List.mem_cons_self y r)
        rcases netlocDelim_cases hx with h2 | h2 | h2
        · refine Or.inr (@combineParams_head pth prm '/' ?_ (by decide))
          rw [hcp, List.head?_cons, hy, h2]
        · exfalso
          apply hDnq
          rw [← h2, ← hy]
          exact hyD
        · exfalso
          apply hDnh
          rw [← h2, ← hy]
          exact hyD
  · intro hsc hnl
    rcases splitNetloc_cases rest with h1 | ⟨-, h3⟩
    · have hBrest : B = rest := by
        rw [hnet] at h1
        exact congrArg Prod.snd h1
      obtain ⟨T, hT⟩ := hchain
      have hn := hnsp hsc
      rw [← hBrest, ← hT] at hn
      exact nsp_prefix hn
    · rw [hnet] at h3
      dsimp only at h3
      obtain ⟨T, hT⟩ := hchain
      match hcp : combineParams pth prm with
      | [] => exact nsp_nil
      | y :: r =>
        rcases h3 with h4 | ⟨x, t, h4, hx⟩
        · rw [h4, hcp] at hT
          simp at hT
        · have hy : y = x := by
            rw [hcp, h4] at hT
            exact (List.cons.inj hT).1
          have hyD : y ∈ D := hcombsub y (by rw [hcp]; exact List.mem_cons_self y r)
          rcases netlocDelim_cases hx with h5 | h5 | h5
          · rw [hy, h5]
            exact nsp_head schemeChar_not_slash
          · exfalso
            apply hDnq
            rw [← h5, ← hy]
            exact hyD
          · exfalso
            apply hDnh
            rw [← h5, ← hy]
            exact hyD

/-- Every parse result satisfies the invariants. -/
theorem urlps_wf (u : List Char) : wfParse (urlps u) := by
  rcases splitScheme_cases u with h | ⟨pre, post, hpre1, hpre2, hpre3, h⟩
  · have he : urlps u = ⟨[], (splitNetloc u).1,
        (splitparams (splitQuery (splitFragment (splitNetloc u).2).1).1).1,
        (splitparams (splitQuery (splitFragment (splitNetloc u).2).1).1).2,
        (splitQuery (splitFragment (splitNetloc u).2).1).2,
        (splitFragment (splitNetloc u).2).2⟩ := by
      rw [urlps_eq, h]
    rw [he]
    have hnsp2 := (splitScheme_fst_nil (by rw [h] : (splitScheme u).1 = [])).2
    exact wf_stages rfl rfl rfl rfl (fun hne => absurd rfl hne) (fun _ => hnsp2)
  · have he : urlps u = ⟨pre.map Char.toLower, (splitNetloc post).1,
        (splitparams (splitQuery (splitFragment (splitNetloc post).2).1).1).1,
        (splitparams (splitQuery (splitFragment (splitNetloc post).2).1).1).2,
        (splitQuery (splitFragment (splitNetloc post).2).1).2,
        (splitFragment (splitNetloc post).2).2⟩ := by
      rw [urlps_eq, h]
    rw [he]
    refine wf_stages rfl rfl rfl rfl ?_ ?_
    · intro _
      constructor
      · rw [List.all_eq_true]
        intro c hc
        obtain ⟨c0, hc0, rfl⟩ := List.mem_map.mp hc
        exact isSchemeChar_toLower (List.all_eq_true.mp hpre3 c0 hc0)
      · rw [List.map_map]
        exact List.map_congr_left (fun c hc => charToLower_idem c)
    · intro hmap
      exact absurd (List.map_eq_nil_iff.mp hmap) hpre2

theorem take_two_cons (a b : Char) (l : List Char) :
    List.take 2 (a :: b :: l) = [a, b] := rfl

theorem take_two_head (x : Char) (t : List Char) :
    List.take 2 (x :: t) = x :: List.take 1 t := rfl

/-- Round trip: re-parsing a reassembled URL yields the same components. -/
theorem geturl_urlps {pr : ParseResult} (h : wfParse pr) :
    urlps (geturl pr) = pr := by
  obtain ⟨sch, net, pth, prm, qry, frg⟩ := pr
  simp only [wfParse] at h
  obtain ⟨W1, W2, W3, W4, W5, W6, W7, W8⟩ := h
  have hu0c : ∀ c ∈ combineParams pth prm, c ≠ '?' ∧ c ≠ '#' := by
    intro c hc
    rw [combineParams] at hc
    by_cases hp : prm = []
    · rw [if_pos hp] at hc
      exact W3 c hc
    · rw [if_neg hp] at hc
      rcases List.mem_append.mp hc with h1 | h2
      · exact W3 c h1
      · rcases List.mem_cons.mp h2 with h3 | h3
        · exact ⟨by rw [h3]; decide, by rw [h3]; decide⟩
        · exact ⟨(W4 c h3).1, (W4 c h3).2.1⟩
  have hstF : ∀ v : List Char, '#' ∉ v →
      splitFragment (v ++ (if frg = [] then [] else '#' :: frg)) = (v, frg) := by
    intro v hv
    by_cases hf : frg = []
    · rw [if_pos hf, List.append_nil, splitFragment_no_hash hv, hf]
    · rw [if_neg hf, splitFragment_append _ hv]
  have hstQ : ∀ v : List Char, '?' ∉ v →
      splitQuery (v ++ (if qry = [] then [] else '?' :: qry)) = (v, qry) := by
    intro v hv
    by_cases hq : qry = []
    · rw [if_pos hq, List.append_nil, splitQuery_no_qm hv, hq]
    · rw [if_neg hq, splitQuery_append _ hv]
  have hstP : splitparams (combineParams pth prm) = (pth, prm) :=
    splitparams_combine W7 (fun hm => (W4 '/' hm).2.2 rfl)
  obtain ⟨qp, hqp⟩ :
      ∃ l, (if qry = [] then ([] : List Char) else '?' :: qry) = l := ⟨_, rfl⟩
  obtain ⟨fp, hfp⟩ :
      ∃ l, (if frg = [] then ([] : List Char) else '#' :: frg) = l := ⟨_, rfl⟩
  rw [hqp] at hstQ
  rw [hfp] at hstF
  have hqf : ∀ x t, qp ++ fp = x :: t → x = '?' ∨ x = '#' := by
    intro x t hx
    by_cases hq : qry = []
    · rw [← hqp, if_pos hq, List.nil_append] at hx
      by_cases hf : frg = []
      · rw [← hfp, if_pos hf] at hx
        simp at hx
      · rw [← hfp, if_neg hf] at hx
        exact Or.inr (List.cons.inj hx).1.symm
    · rw [← hqp, if_neg hq, List.cons_append] at hx
      exact Or.inl (List.cons.inj hx).1.symm
  have hnoq : '?' ∉ combineParams pth prm := fun hm => (hu0c _ hm).1 rfl
  have hnoh : '#' ∉ combineParams pth prm ++ qp := by
    intro hm
    rcases List.mem_append.mp hm with h1 | h1
    · exact (hu0c _ h1).2 rfl
    · by_cases hq : qry = []
      · rw [← hqp, if_pos hq] at h1
        simp at h1
      · rw [← hqp, if_neg hq] at h1
        rcases List.mem_cons.mp h1 with h2 | h2
        · simp at h2
        · exact W5 h2
  have hqp2 : ∀ v : List Char, (if qry ≠ [] then v ++ '?' :: qry else v) = v ++ qp := by
    intro v
    by_cases hq : qry = [] <;> simp [hq, ← hqp]
  have hfp2 : ∀ v : List Char, (if frg ≠ [] then v ++ '#' :: frg else v) = v ++ fp := by
    intro v
    by_cases hf : frg = [] <;> simp [hf, ← hfp]
  have hF2 : splitFragment (combineParams pth prm ++ (qp ++ fp)) =
      (combineParams pth prm ++ qp, frg) := by
    rw [← List.append_assoc]
    exact hstF _ hnoh
  have hQ2 : splitQuery (combineParams pth prm ++ qp) = (combineParams pth prm, qry) :=
    hstQ _ hnoq
  by_cases hcond : net ≠ [] ∨ (combineParams pth prm).take 2 = ['/', '/']
  · -- the '//'-producing branch of geturl
    have hu0shape : combineParams pth prm = [] ∨
        (combineParams pth prm).head? = some '/' := by
      rcases hcond with hne | h2
      · rcases W6 hne with ⟨hp1, hp2⟩ | hph
        · exact Or.inl (by rw [combineParams, if_pos hp2, hp1])
        · refine Or.inr ?_
          rw [combineParams]
          by_cases hp : prm = []
          · rw [if_pos hp]
            exact hph
          · rw [if_neg hp,
              head_append_left (by
                intro hc
                rw [hc] at hph
                simp at hph)]
            exact hph
      · match hu : combineParams pth prm with
        | [] =>
          rw [hu] at h2
          simp at h2
        | a :: r =>
          rw [hu] at h2
          refine Or.inr ?_
          cases r with
          | nil => simp at h2
          | cons b r2 =>
            have : a = '/' := by
              simpa using congrArg List.head? h2
            rw [this]
            rfl
    have hguard : (if combineParams pth prm ≠ [] ∧
        (combineParams pth prm).head? ≠ some '/' then
        '/' :: combineParams pth prm else combineParams pth prm) =
        combineParams pth prm := by
      rcases hu0shape with h1 | h1
      · rw [if_neg (fun hc => hc.1 h1)]
      · rw [if_neg (fun hc => hc.2 h1)]
    have hfull : geturl ⟨sch, net, pth, prm, qry, frg⟩ =
        (if sch ≠ [] then
            sch ++ ':' :: ('/' :: '/' :: (net ++ combineParams pth prm))
          else '/' :: '/' :: (net ++ combineParams pth prm)) ++ qp ++ fp := by
      simp only [geturl]
      rw [if_pos hcond, hguard, hqp2, hfp2]
    have hREM : combineParams pth prm ++ (qp ++ fp) = [] ∨
        ∃ c t2, combineParams pth prm ++ (qp ++ fp) = c :: t2 ∧
          netlocDelim c = true := by
      rcases hu0shape with h1 | h1
      · rw [h1, List.nil_append]
        match hl : qp ++ fp with
        | [] => exact Or.inl rfl
        | x :: t =>
          refine Or.inr ⟨x, t, rfl, ?_⟩
          rcases hqf x t hl with h2 | h2 <;> rw [h2] <;> decide
      · match hu : combineParams pth prm with
        | [] =>
          rw [hu] at h1
          simp at h1
        | a :: r =>
          rw [hu] at h1
          simp only [List.head?_cons, Option.some.injEq] at h1
          refine Or.inr ⟨a, r ++ (qp ++ fp), by rw [List.cons_append], ?_⟩
          rw [h1]
          decide
    have hN : splitNetloc ('/' :: '/' ::
        (net ++ (combineParams pth prm ++ (qp ++ fp)))) =
        (net, combineParams pth prm ++ (qp ++ fp)) := by
      rw [splitNetloc, if_pos (take_two_cons '/' '/' _)]
      exact takeNetloc_append W2 hREM
    by_cases hs : sch = []
    · subst hs
      have hfull2 : geturl ⟨[], net, pth, prm, qry, frg⟩ =
          '/' :: '/' :: (net ++ (combineParams pth prm ++ (qp ++ fp))) := by
        rw [hfull, if_neg (by simp)]
        simp [List.append_assoc]
      have hS : splitScheme ('/' :: '/' ::
          (net ++ (combineParams pth prm ++ (qp ++ fp)))) =
          ([], '/' :: '/' :: (net ++ (combineParams pth prm ++ (qp ++ fp)))) :=
        splitScheme_of_nsp (nsp_head schemeChar_not_slash)
      rw [hfull2, urlps_eq, hS]
      dsimp only
      rw [hN]
      dsimp only
      rw [hF2]
      dsimp only
      rw [hQ2]
      dsimp only
      rw [hstP]
    · have hfull2 : geturl ⟨sch, net, pth, prm, qry, frg⟩ =
          sch ++ ':' :: ('/' :: '/' ::
            (net ++ (combineParams pth prm ++ (qp ++ fp)))) := by
        rw [hfull, if_pos hs]
        simp [List.append_assoc]
      have hS : splitScheme (sch ++ ':' :: ('/' :: '/' ::
          (net ++ (combineParams pth prm ++ (qp ++ fp))))) =
          (sch, '/' :: '/' :: (net ++ (combineParams pth prm ++ (qp ++ fp)))) := by
        rw [splitScheme_append hs (W1 hs).1, (W1 hs).2]
      rw [hfull2, urlps_eq, hS]
      dsimp only
      rw [hN]
      dsimp only
      rw [hF2]
      dsimp only
      rw [hQ2]
      dsimp only
      rw [hstP]
  · -- the plain branch of geturl
    have hnet0 : net = [] := by
      by_cases hn : net = []
      · exact hn
      · exact absurd (Or.inl hn) hcond
    have htake : ¬ (combineParams pth prm).take 2 = ['/', '/'] :=
      fun hc => hcond (Or.inr hc)
    have hfull : geturl ⟨sch, net, pth, prm, qry, frg⟩ =
        (if sch ≠ [] then sch ++ ':' :: combineParams pth prm
          else combineParams pth prm) ++ qp ++ fp := by
      simp only [geturl]
      rw [if_neg hcond, hqp2, hfp2]
    have htake2 : ¬ (combineParams pth prm ++ (qp ++ fp)).take 2 = ['/', '/'] := by
      match hu : combineParams pth prm with
      | [] =>
        rw [List.nil_append]
        match hl : qp ++ fp with
        | [] => simp
        | x :: t =>
          intro hc
          have hx : x = '/' := by
            have := congrArg List.head? hc
            rw [take_two_head] at this
            simpa using this
          rcases hqf x t hl with h2 | h2 <;> rw [h2] at hx <;> simp at hx
      | [a] =>
        rw [List.cons_append, List.nil_append]
        match hl : qp ++ fp with
        | [] => simp
        | x :: t =>
          rw [take_two_cons]
          intro hc
          have hx : x = '/' := by
            have h3 := congrArg (fun l => List.getD l 1 ' ') hc
            simpa using h3
          rcases hqf x t hl with h2 | h2 <;> rw [h2] at hx <;> simp at hx
      | a :: b :: r =>
        rw [List.cons_append, List.cons_append, take_two_cons]
        intro hc
        apply htake
        rw [hu, take_two_cons]
        exact hc
    have hN2 : splitNetloc (combineParams pth prm ++ (qp ++ fp)) =
        ([], combineParams pth prm ++ (qp ++ fp)) := by
      rw [splitNetloc, if_neg htake2]
    by_cases hs : sch = []
    · subst hs
      have hfull2 : geturl ⟨[], net, pth, prm, qry, frg⟩ =
          combineParams pth prm ++ (qp ++ fp) := by
        rw [hfull, if_neg (by simp)]
        simp [List.append_assoc]
      have hnsp2 : noSchemePrefix (combineParams pth prm ++ (qp ++ fp)) :=
        nsp_extend (W8 rfl hnet0) hqf
      have hS : splitScheme (combineParams pth prm ++ (qp ++ fp)) =
          ([], combineParams pth prm ++ (qp ++ fp)) := splitScheme_of_nsp hnsp2
      rw [hfull2, urlps_eq, hS]
      dsimp only
      rw [hN2]
      dsimp only
      rw [hF2]
      dsimp only
      rw [hQ2]
      dsimp only
      rw [hstP, hnet0]
    · have hfull2 : geturl ⟨sch, net, pth, prm, qry, frg⟩ =
          sch ++ ':' :: (combineParams pth prm ++ (qp ++ fp)) := by
        rw [hfull, if_pos hs]
        simp [List.append_assoc]
      have hS : splitScheme (sch ++ ':' :: (combineParams pth prm ++ (qp ++ fp))) =
          (sch, combineParams pth prm ++ (qp ++ fp)) := by
        rw [splitScheme_append hs (W1 hs).1, (W1 hs).2]
      rw [hfull2, urlps_eq, hS]
      dsimp only
      rw [hN2]
      dsimp only
      rw [hF2]
      dsimp only
      rw [hQ2]
      dsimp only
      rw [hstP, hnet0]

/-! ### Decimal rendering: characters of `str(int)` are digits or a minus sign -/

theorem digitChar_isDigit {m : Nat} (h : m < 10) :
    (Nat.digitChar m).isDigit = true := by
  interval_cases m <;> decide

theorem toDigitsCore_digits (fuel : Nat) :
    ∀ (n : Nat) (ds : List Char), (∀ c ∈ ds, c.isDigit = true) →
      ∀ c ∈ Nat.toDigitsCore 10 fuel n ds, c.isDigit = true := by
  induction fuel with
  | zero =>
    intro n ds hds c hc
    rw [Nat.toDigitsCore] at hc
    exact hds c hc
  | succ fuel ih =>
    intro n ds hds c hc
    rw [Nat.toDigitsCore] at hc
    have hd : ∀ x ∈ (n % 10).digitChar :: ds, x.isDigit = true := by
      intro x hx
      rcases List.mem_cons.mp hx with h1 | h1
      · rw [h1]
        exact digitChar_isDigit (Nat.mod_lt n (by omega))
      · exact hds x h1
    by_cases hz : n / 10 = 0
    · rw [if_pos hz] at hc
      exact hd c hc
    · rw [if_neg hz] at hc
      exact ih (n / 10) ((n % 10).digitChar :: ds) hd c hc

theorem toDigitsCore_ne_nil (fuel : Nat) :
    ∀ (n : Nat) (ds : List Char), fuel ≠ 0 ∨ ds ≠ [] →
      Nat.toDigitsCore 10 fuel n ds ≠ [] := by
  induction fuel with
  | zero =>
    intro n ds hds
    rw [Nat.toDigitsCore]
    rcases hds with h | h
    · exact absurd rfl h
    · exact h
  | succ fuel ih =>
    intro n ds _
    rw [Nat.toDigitsCore]
    by_cases hz : n / 10 = 0
    · rw [if_pos hz]
      simp
    · rw [if_neg hz]
      exact ih (n / 10) ((n % 10).digitChar :: ds) (Or.inr (by simp))

theorem natRepr_digits (n : Nat) : ∀ c ∈ (Nat.repr n).data, c.isDigit = true := by
  intro c hc
  exact toDigitsCore_digits (n + 1) n [] (by simp) c hc

theorem natRepr_ne_nil (n : Nat) : (Nat.repr n).data ≠ [] :=
  toDigitsCore_ne_nil (n + 1) n [] (Or.inl (by omega))

theorem intRepr_chars (i : Int) :
    ∀ c ∈ (toString i).data, c.isDigit = true ∨ c = '-' := by
  intro c hc
  cases i with
  | ofNat m => exact Or.inl (natRepr_digits m c hc)
  | negSucc m =>
    have he : (toString (Int.negSucc m)).data = '-' :: (Nat.repr (m + 1)).data := by
      show (Int.repr (Int.negSucc m)).data = _
      rw [Int.repr]
      rw [String.data_append]
      rfl
    rw [he] at hc
    rcases List.mem_cons.mp hc with h1 | h1
    · exact Or.inr h1
    · exact Or.inl (natRepr_digits (m + 1) c h1)

theorem intRepr_ne_nil (i : Int) : (toString i).data ≠ [] := by
  cases i with
  | ofNat m => exact natRepr_ne_nil m
  | negSucc m =>
    have he : (toString (Int.negSucc m)).data = '-' :: (Nat.repr (m + 1)).data := by
      show (Int.repr (Int.negSucc m)).data = _
      rw [Int.repr]
      rw [String.data_append]
      rfl
    rw [he]
    simp

/-- The seconds rendered by `utils.CompatStr` make a well-formed query pair and
carry no URL metacharacters. -/
theorem intRepr_pair_ok (i : Int) {c : Char} (hc : c ∈ (toString i).data) :
    c ≠ '&' ∧ c ≠ '=' ∧ c ≠ '#' := by
  rcases intRepr_chars i c hc with h | h
  · refine ⟨?_, ?_, ?_⟩ <;> intro he <;> rw [he] at h <;> simp at h
  · rw [h]
    refine ⟨by decide, by decide, by decide⟩

theorem intercalate_cons2 (sep a b : List Char) (t : List (List Char)) :
    sep.intercalate (a :: b :: t) = a ++ (sep ++ sep.intercalate (b :: t)) := by
  simp [List.intercalate, List.intersperse]

theorem mem_intercalate_amp {ps : List (List Char)} {c : Char}
    (hm : c ∈ [('&' : Char)].intercalate ps) : c = '&' ∨ ∃ l ∈ ps, c ∈ l := by
  induction ps with
  | nil => simp [List.intercalate] at hm
  | cons a t ih =>
    cases t with
    | nil =>
      simp only [List.intercalate, List.intersperse, List.flatten] at hm
      exact Or.inr ⟨a, by simp, by simpa using hm⟩
    | cons b t2 =>
      rw [intercalate_cons2] at hm
      rcases List.mem_append.mp hm with h1 | h1
      · exact Or.inr ⟨a, by simp, h1⟩
      · rcases List.mem_append.mp h1 with h2 | h2
        · exact Or.inl (by simpa using h2)
        · rcases ih h2 with h3 | ⟨l, hl, hcl⟩
          · exact Or.inl h3
          · exact Or.inr ⟨l, List.mem_cons_of_mem a hl, hcl⟩

theorem assemble_chars {ps : List (List Char × List Char)} {c : Char}
    (hc : c ∈ assemble_query_string ps) :
    c = '&' ∨ c = '=' ∨ ∃ p ∈ ps, c ∈ p.1 ∨ c ∈ p.2 := by
  rw [assemble_query_string] at hc
  rcases mem_intercalate_amp hc with h | ⟨l, hl, hcl⟩
  · exact Or.inl h
  · obtain ⟨p, hp, rfl⟩ := List.mem_map.mp hl
    rcases List.mem_append.mp hcl with h1 | h1
    · exact Or.inr (Or.inr ⟨p, hp, Or.inl h1⟩)
    · rcases List.mem_cons.mp h1 with h2 | h2
      · exact Or.inr (Or.inl h2)
      · exact Or.inr (Or.inr ⟨p, hp, Or.inr h2⟩)

/-- The updated pair list built by the rewrite is well-formed. -/
theorem updated_wf (ql : List (List Char × List Char))
    (hql : ∀ p ∈ ql, wfPair p) (s e : Int) :
    ∀ p ∈ dropWindow ql ++
      [("start".data, (toString s).data), ("end".data, (toString e).data)],
      wfPair p := by
  intro p hp
  rcases List.mem_append.mp hp with h1 | h1
  · exact hql p (List.mem_filter.mp h1).1
  · rcases List.mem_cons.mp h1 with h2 | h2
    · subst h2
      refine ⟨show ('&' : Char) ∉ "start".data by decide,
        show ('=' : Char) ∉ "start".data by decide, ?_, intRepr_ne_nil s⟩
      intro hm
      exact (intRepr_pair_ok s hm).1 rfl
    · rcases List.mem_cons.mp h2 with h3 | h3
      · subst h3
        refine ⟨show ('&' : Char) ∉ "end".data by decide,
          show ('=' : Char) ∉ "end".data by decide, ?_, intRepr_ne_nil e⟩
        intro hm
        exact (intRepr_pair_ok e hm).1 rfl
      · simp at h3

theorem dropWindow_append (a b : List (List Char × List Char)) :
    dropWindow (a ++ b) = dropWindow a ++ dropWindow b := by
  rw [dropWindow, dropWindow, dropWindow, List.filter_append]

theorem dropWindow_dropWindow (l : List (List Char × List Char)) :
    dropWindow (dropWindow l) = dropWindow l := by
  rw [dropWindow, dropWindow, List.filter_filter]
  exact List.filter_congr (fun a _ => Bool.and_self _)

theorem dropWindow_marks (s e : Int) :
    dropWindow [("start".data, (toString s).data),
      ("end".data, (toString e).data)] = [] := by
  rw [dropWindow]
  simp [List.filter]

/-- The query built by the rewrite contains no `#`. -/
theorem newq_no_hash {qry : List Char} (h5 : '#' ∉ qry) (s e : Int) :
    '#' ∉ assemble_query_string (dropWindow (parse_qsl qry) ++
      [("start".data, (toString s).data), ("end".data, (toString e).data)]) := by
  intro hm
  rcases assemble_chars hm with h | h | ⟨p, hp, hc⟩
  · simp at h
  · simp at h
  · rcases List.mem_append.mp hp with h1 | h1
    · exact h5 (parse_qsl_chars (List.mem_filter.mp h1).1 hc)
    · rcases List.mem_cons.mp h1 with h2 | h2
      · subst h2
        rcases hc with h3 | h3
        · exact absurd h3 (show ('#' : Char) ∉ "start".data by decide)
        · exact (intRepr_pair_ok s h3).2.2 rfl
      · rcases List.mem_cons.mp h2 with h3 | h3
        · subst h3
          rcases hc with h4 | h4
          · exact absurd h4 (show ('#' : Char) ∉ "end".data by decide)
          · exact (intRepr_pair_ok e h4).2.2 rfl
        · simp at h3

/-- Applying the time-window rewrite twice with the same marks produces the
same URL as applying it once. -/
theorem applyWindow_idem (url : List Char) (s e : Int) :
    applyWindow (applyWindow url s e) s e = applyWindow url s e := by
  obtain ⟨W1, W2, W3, W4, W5, W6, W7, W8⟩ := urlps_wf url
  have hpairs : ∀ p ∈ dropWindow (parse_qsl (urlps url).query) ++
      [("start".data, (toString s).data), ("end".data, (toString e).data)],
      wfPair p :=
    updated_wf (parse_qsl (urlps url).query) (fun _ hp => parse_qsl_wf hp) s e
  have hwf2 : wfParse { urlps url with
      query := assemble_query_string (dropWindow (parse_qsl (urlps url).query) ++
        [("start".data, (toString s).data), ("end".data, (toString e).data)]) } := by
    refine ⟨W1, W2, W3, W4, ?_, W6, W7, W8⟩
    exact newq_no_hash W5 s e
  have hX : applyWindow url s e = geturl { urlps url with
      query := assemble_query_string (dropWindow (parse_qsl (urlps url).query) ++
        [("start".data, (toString s).data), ("end".data, (toString e).data)]) } := rfl
  have hround : urlps (applyWindow url s e) = { urlps url with
      query := assemble_query_string (dropWindow (parse_qsl (urlps url).query) ++
        [("start".data, (toString s).data), ("end".data, (toString e).data)]) } := by
    rw [hX]
    exact geturl_urlps hwf2
  have hY : applyWindow (applyWindow url s e) s e =
      geturl { urlps (applyWindow url s e) with
        query := assemble_query_string
          (dropWindow (parse_qsl (urlps (applyWindow url s e)).query) ++
            [("start".data, (toString s).data),
             ("end".data, (toString e).data)]) } := rfl
  rw [hY, hround]
  dsimp only
  rw [parse_qsl_assemble hpairs, dropWindow_append, dropWindow_dropWindow,
    dropWindow_marks s e, List.append_nil, hX]

/-! ### Supporting lemmas for the claim theorems -/

theorem find?_first_match {α : Type} (p : α → Bool) (l1 : List α) (c : α)
    (l2 : List α) (hc : p c = true) (hl : ∀ x ∈ l1, p x = false) :
    (l1 ++ c :: l2).find? p = some c := by
  induction l1 with
  | nil => rw [List.nil_append, List.find?_cons, hc]
  | cons x t ih =>
    rw [List.cons_append, List.find?_cons, hl x (List.mem_cons_self x t)]
    exact ih (fun y hy => hl y (List.mem_cons_of_mem x hy))

theorem takeWhile_all {p : Char → Bool} {l : List Char}
    (h : ∀ c ∈ l, p c = true) : l.takeWhile p = l := by
  induction l with
  | nil => rfl
  | cons x t ih =>
    rw [List.takeWhile_cons, h x (List.mem_cons_self x t), if_pos rfl,
      ih (fun c hc => h c (List.mem_cons_of_mem x hc))]

theorem fdiv_small {m : Int} (h1 : 0 ≤ m) (h2 : m < 1000) :
    Int.fdiv m 1000 = 0 := by
  obtain ⟨n, rfl⟩ := Int.eq_ofNat_of_zero_le h1
  have hn : n < 1000 := by exact_mod_cast h2
  show Int.fdiv (Int.ofNat n) (Int.ofNat 1000) = 0
  cases n with
  | zero => rfl
  | succ k =>
    show Int.ofNat ((k + 1) / 1000) = 0
    rw [Nat.div_eq_of_lt hn]
    rfl

/-- The WIDEVINE scan adopts the resource iff the drmList has a WIDEVINE
entry, recording the last such entry's license URL. -/
theorem drmScan_eq (dl : List Drm) (w : Int) (mf u : String) (st : SelState) :
    drmScan dl w mf u st =
      match (dl.filter (fun d => d.type == "WIDEVINE")).getLast? with
      | none => st
      | some d0 => ⟨w, some mf, some d0.licenseUrl, some u⟩ := by
  induction dl generalizing st with
  | nil => rfl
  | cons d t ih =>
    rw [drmScan, List.foldl_cons]
    by_cases hd : d.type = "WIDEVINE"
    · rw [if_pos hd]
      have hfil : (d :: t).filter (fun x => x.type == "WIDEVINE") =
          d :: t.filter (fun x => x.type == "WIDEVINE") := by
        rw [List.filter_cons, if_pos (by simp [hd])]
      rw [hfil]
      have hs := ih ⟨w, some mf, some d.licenseUrl, some u⟩
      rw [drmScan] at hs
      rw [hs]
      cases hgl : (t.filter (fun x => x.type == "WIDEVINE")).getLast? with
      | none =>
        rw [List.getLast?_cons, List.getLast?_eq_none_iff.mp hgl]
        rfl
      | some d0 =>
        rw [List.getLast?_cons, hgl]
        rfl
    · rw [if_neg hd]
      have hfil : (d :: t).filter (fun x => x.type == "WIDEVINE") =
          t.filter (fun x => x.type == "WIDEVINE") := by
        rw [List.filter_cons, if_neg (by simp [hd])]
      rw [hfil]
      have hs := ih st
      rw [drmScan] at hs
      exact hs

theorem lowerRun_no_colon {l : List Char} (h : lowerRun l = true) : ':' ∉ l := by
  intro hm
  rw [lowerRun, Bool.and_eq_true] at h
  have := List.all_eq_true.mp h.2 ':' hm
  simp at this

/-! ### Claim theorems -/

/-- Claim C1: the selector scans the resource list in order as a left fold
whose current weight starts at -1; an eligible resource is skipped only when
its weight is strictly below the current weight (so an equal-weight resource
later in the list overwrites an earlier one); and on the list
[(HLS,SD),(HLS,HD),(DASH,SD)] with prefer_hd = true (weights SD=1, HD=2,
HQ=2) the (HLS,HD) resource is returned. -/
theorem C1_selector_order_and_example :
    initSelState.current_weight = -1 ∧
    (∀ a hd rl, selectResource a hd rl = rl.foldl (selectStep a hd) initSelState) ∧
    (∀ a hd st res resMf, protocols a (pyUpper res.protocol) = some resMf →
      weight hd res.quality < st.current_weight → selectStep a hd st res = st) ∧
    (∀ a hd st res resMf, protocols a (pyUpper res.protocol) = some resMf →
      st.current_weight ≤ weight hd res.quality → res.drmList = none →
      selectStep a hd st res =
        ⟨weight hd res.quality, some resMf, none, some res.url⟩) ∧
    selectResource false true
      [⟨"HLS", "SD", "u1", none⟩, ⟨"HLS", "HD", "u2", none⟩,
        ⟨"DASH", "SD", "u3", none⟩] =
      ⟨2, some "hls", none, some "u2"⟩ := by
  refine ⟨rfl, fun a hd rl => rfl, ?_, ?_, by decide⟩
  · intro a hd st res resMf hp hw
    simp only [selectStep, hp]
    rw [if_pos hw]
  · intro a hd st res resMf hp hw hdl
    simp only [selectStep, hp, hdl]
    rw [if_neg (not_lt.mpr hw)]

/-- Witness for C1: the (HLS,HD) resource overwrites an equal-or-lower state
and the trailing (DASH,SD) resource is skipped for having lower weight. -/
theorem C1_selector_order_and_example_witness :
    selectStep false true ⟨1, some "hls", none, some "u1"⟩
      ⟨"HLS", "HD", "u2", none⟩ = ⟨2, some "hls", none, some "u2"⟩ ∧
    selectStep false true ⟨2, some "hls", none, some "u2"⟩
      ⟨"DASH", "SD", "u3", none⟩ = ⟨2, some "hls", none, some "u2"⟩ :=
  ⟨C1_selector_order_and_example.2.2.2.1 false true
      ⟨1, some "hls", none, some "u1"⟩ ⟨"HLS", "HD", "u2", none⟩ "hls"
      (by decide) (by decide) rfl,
    C1_selector_order_and_example.2.2.1 false true
      ⟨2, some "hls", none, some "u2"⟩ ⟨"DASH", "SD", "u3", none⟩ "mpd"
      (by decide) (by decide)⟩

/-- Claim C3 (code bug): authorization failure is not non-fatal. For a URL
whose path has at least two slashes, an unreachable token service (open_url
returns `''`, line 200) or a non-JSON reply makes json.loads at line 1421
raise ValueError out of get_auth_url. For a URL whose path has fewer than
two slashes — such as the common CDN form https://cdn/a.m3u8 — the acl
subscript spl[2] at line 1424 raises IndexError before the token service is
even contacted, whatever its health. Only with a deep-enough path and a
healthy service is the URL returned unchanged (no authparams) or extended
with them. -/
theorem C3_get_auth_url_failure :
    get_auth_url .unparsable "https://cdn/video/master.m3u8" =
      .error "ValueError: json.loads" ∧
    get_auth_url (.parsed (some "sig=2")) "https://cdn/a.m3u8" =
      .error "IndexError: list index out of range" ∧
    get_auth_url .unparsable "https://cdn/a.m3u8" =
      .error "IndexError: list index out of range" ∧
    get_auth_url (.parsed none) "https://cdn/video/master.m3u8" =
      .ok "https://cdn/video/master.m3u8" ∧
    get_auth_url (.parsed (some "sig=2")) "https://cdn/video/master.m3u8" =
      .ok "https://cdn/video/master.m3u8?sig=2" :=
  ⟨rfl, rfl, rfl, rfl, rfl⟩

/-- Claim C4 (code bug): build_episode_menu wraps json.loads(open_url(...))
in try/except and returns cleanly on failure, but play_video calls it
unguarded (line 1451), so a transport failure or malformed JSON raises out
of play_video instead of producing a clean not-found result. -/
theorem C4_fetch_failure_behavior :
    (∀ bu ph st tok subs vid audio,
      play_video bu ph st none tok subs vid audio =
        .raised "ValueError: json.loads") ∧
    (∀ vid, build_episode_menu none vid = .aborted "cannot open media json") :=
  ⟨fun _ _ _ _ _ _ _ => rfl, fun _ => rfl⟩

/-- Claim C5: a resource carrying a drmList is adopted iff the list contains
a WIDEVINE entry (the last such entry's licenseUrl is recorded; other DRM
types never cause adoption), adoption takes exactly the quality weight (no
DRM bonus), and on [(HLS,SD,WIDEVINE),(HLS,HD)] with prefer_hd = false
(weights HD=1, SD=2) the DRM SD resource wins purely by weight. -/
theorem C5_drm_adoption :
    (∀ a hd st res resMf dl, protocols a (pyUpper res.protocol) = some resMf →
      st.current_weight ≤ weight hd res.quality → res.drmList = some dl →
      ((∀ d ∈ dl, d.type ≠ "WIDEVINE") → selectStep a hd st res = st) ∧
      (∀ d0, (dl.filter (fun d => d.type == "WIDEVINE")).getLast? = some d0 →
        selectStep a hd st res =
          ⟨weight hd res.quality, some resMf, some d0.licenseUrl, some res.url⟩)) ∧
    selectResource false false
      [⟨"HLS", "SD", "u1", some [⟨"WIDEVINE", "lic1"⟩]⟩,
        ⟨"HLS", "HD", "u2", none⟩] =
      ⟨2, some "hls", some "lic1", some "u1"⟩ := by
  refine ⟨?_, by decide⟩
  intro a hd st res resMf dl hp hw hdl
  constructor
  · intro hnw
    simp only [selectStep, hp, hdl]
    rw [if_neg (not_lt.mpr hw), drmScan_eq]
    have hfil : dl.filter (fun d => d.type == "WIDEVINE") = [] := by
      rw [List.filter_eq_nil_iff]
      intro d hd2
      simp [hnw d hd2]
    rw [hfil]
    rfl
  · intro d0 hlast
    simp only [selectStep, hp, hdl]
    rw [if_neg (not_lt.mpr hw), drmScan_eq, hlast]

/-- Witness for C5: a PLAYREADY-only drmList leaves the state untouched; a
drmList with two WIDEVINE entries adopts the resource with the last entry's
license URL at the plain quality weight. -/
theorem C5_drm_adoption_witness :
    selectStep false false ⟨-1, none, none, none⟩
      ⟨"HLS", "SD", "u1", some [⟨"PLAYREADY", "lx"⟩]⟩ = ⟨-1, none, none, none⟩ ∧
    selectStep false false ⟨-1, none, none, none⟩
      ⟨"HLS", "SD", "u1", some [⟨"WIDEVINE", "l1"⟩, ⟨"WIDEVINE", "l2"⟩]⟩ =
      ⟨2, some "hls", some "l2", some "u1"⟩ :=
  ⟨(C5_drm_adoption.1 false false ⟨-1, none, none, none⟩
      ⟨"HLS", "SD", "u1", some [⟨"PLAYREADY", "lx"⟩]⟩ "hls" [⟨"PLAYREADY", "lx"⟩]
      (by decide) (by decide) rfl).1 (by decide),
    (C5_drm_adoption.1 false false ⟨-1, none, none, none⟩
      ⟨"HLS", "SD", "u1", some [⟨"WIDEVINE", "l1"⟩, ⟨"WIDEVINE", "l2"⟩]⟩ "hls"
      [⟨"WIDEVINE", "l1"⟩, ⟨"WIDEVINE", "l2"⟩]
      (by decide) (by decide) rfl).2 ⟨"WIDEVINE", "l2"⟩ (by decide)⟩

/-- Claim C6: for url https://x/m.mpd?token=abc with markIn 5000 and markOut
12000, the time-window rewrite yields query parameters start=5, end=12 and
token=abc with no duplicate start/end (milliseconds floor-divided to whole
seconds), and scheme, host, path and fragment are unchanged. -/
theorem C6_time_window_example :
    windowStep "https://x/m.mpd?token=abc"
      (segmentTimes [⟨some "s1", some 5000, some 12000⟩] "s1") =
      "https://x/m.mpd?token=abc&start=5&end=12" ∧
    parse_qsl (urlps ("https://x/m.mpd?token=abc&start=5&end=12").data).query =
      [("token".data, "abc".data), ("start".data, "5".data),
        ("end".data, "12".data)] ∧
    Int.fdiv 5000 1000 = 5 ∧ Int.fdiv 12000 1000 = 12 ∧
    (urlps ("https://x/m.mpd?token=abc&start=5&end=12").data).scheme =
      (urlps "https://x/m.mpd?token=abc".data).scheme ∧
    (urlps ("https://x/m.mpd?token=abc&start=5&end=12").data).netloc =
      (urlps "https://x/m.mpd?token=abc".data).netloc ∧
    (urlps ("https://x/m.mpd?token=abc&start=5&end=12").data).path =
      (urlps "https://x/m.mpd?token=abc".data).path ∧
    (urlps ("https://x/m.mpd?token=abc&start=5&end=12").data).fragment =
      (urlps "https://x/m.mpd?token=abc".data).fragment := by
  decide

/-- Claim C7: the time-window rewrite is idempotent — applying it twice with
the same marks yields the same URL as once, because existing start/end query
parameters are stripped before the new ones are appended; this holds for the
raw rewrite and for the guarded windowStep of play_video. -/
theorem C7_window_rewrite_idempotent (url : String) (s e : Int)
    (times : Option Int × Option Int) :
    (⟨applyWindow (applyWindow url.data s e) s e⟩ : String) =
      ⟨applyWindow url.data s e⟩ ∧
    windowStep (windowStep url times) times = windowStep url times := by
  constructor
  · exact congrArg String.mk (applyWindow_idem url.data s e)
  · by_cases hc : (truthyInt times.1 && truthyInt times.2) = true
    · have hv : windowStep url times =
          ⟨applyWindow url.data (times.1.getD 0) (times.2.getD 0)⟩ := by
        rw [windowStep, if_pos hc]
      rw [hv]
      have h2 : windowStep
          (⟨applyWindow url.data (times.1.getD 0) (times.2.getD 0)⟩ : String)
          times =
          ⟨applyWindow (applyWindow url.data (times.1.getD 0) (times.2.getD 0))
            (times.1.getD 0) (times.2.getD 0)⟩ := by
        rw [windowStep, if_pos hc]
      rw [h2, applyWindow_idem]
    · have hv : windowStep url times = url := by rw [windowStep, if_neg hc]
      rw [hv, hv]

/-- Claim C2 counterexample: a composition whose only chapter has id "a",
requested with id "b" (absent from the chapter list), does not fail — the
play_video locate falls back to the first chapter and resource selection
proceeds, resolving its stream. -/
theorem C2_counterexample :
    Chapter.id
      ⟨some "a", none, [⟨"HLS", "HD", "https://cdn/video/a.m3u8", none⟩], []⟩ ≠
      some "b" ∧
    play_video "srf" true false
      (some ⟨[⟨some "a", none,
        [⟨"HLS", "HD", "https://cdn/video/a.m3u8", none⟩], []⟩],
        "", some "T"⟩)
      (.parsed none) none "b" false =
      .resolvedVideo "T" "https://cdn/video/a.m3u8" "hls" none none := by
  decide

/-- Claim C2 amended: in build_episode_menu an absent chapter id is a clean
terminal failure and a present id yields the first matching chapter; in
play_video an absent id falls back to the first chapter of the list (the
empty list being the only failure there), and a present id yields the first
matching chapter. -/
theorem C2_locate :
    (∀ (resp : BemComposition) cid, matchIdRegex resp.chapterUrn = some cid →
      (∀ c ∈ resp.chapterList, c.id.getD "" ≠ cid) →
      ∀ vid, build_episode_menu (some resp) vid =
        .aborted "no chapter id found") ∧
    (∀ (resp : BemComposition) cid l1 c l2,
      matchIdRegex resp.chapterUrn = some cid →
      resp.chapterList = l1 ++ c :: l2 → c.id.getD "" = cid →
      (∀ x ∈ l1, x.id.getD "" ≠ cid) →
      build_episode_menu (some resp) cid = .builtChapter c) ∧
    (∀ (cl : List Chapter) (vid : String) (c0 : Chapter) (t : List Chapter),
      cl = c0 :: t →
      (∀ c ∈ cl, c.id ≠ some vid) →
      (cl.find? (fun e => e.id == some vid)).getD
        (cl.headD ⟨none, none, [], []⟩) = c0) ∧
    (∀ (l1 : List Chapter) (c : Chapter) (l2 : List Chapter) (vid : String),
      c.id = some vid →
      (∀ x ∈ l1, x.id ≠ some vid) →
      ((l1 ++ c :: l2).find? (fun e => e.id == some vid)).getD
        ((l1 ++ c :: l2).headD ⟨none, none, [], []⟩) = c) := by
  refine ⟨?_, ?_, ?_, ?_⟩
  · intro resp cid hm hab vid
    have hf : resp.chapterList.find? (fun c => c.id.getD "" == cid) = none :=
      List.find?_eq_none.mpr (fun x hx => by
        simp only [beq_iff_eq]
        exact hab x hx)
    simp only [build_episode_menu, hm, hf]
  · intro resp cid l1 c l2 hm hcl hc hl1
    have hf : resp.chapterList.find? (fun x => x.id.getD "" == cid) = some c := by
      rw [hcl]
      exact find?_first_match _ l1 c l2 (by simp [hc])
        (fun x hx => by simp [hl1 x hx])
    simp only [build_episode_menu, hm, hf]
    rw [if_pos (by simp)]
  · intro cl vid c0 t hcl hab
    have hf : cl.find? (fun e => e.id == some vid) = none :=
      List.find?_eq_none.mpr (fun x hx => by
        simp only [beq_iff_eq]
        exact hab x hx)
    rw [hf, hcl]
    rfl
  · intro l1 c l2 vid hc hl1
    have hf : (l1 ++ c :: l2).find? (fun e => e.id == some vid) = some c :=
      find?_first_match _ l1 c l2 (by simp [hc]) (fun x hx => by simp [hl1 x hx])
    rw [hf]
    rfl

/-- Witness for the amended C2 at concrete compositions. -/
theorem C2_locate_witness :
    build_episode_menu
      (some ⟨"urn:srf:video:zzz", "",
        [⟨some "a", none, [], []⟩]⟩) "zzz" = .aborted "no chapter id found" ∧
    build_episode_menu
      (some ⟨"urn:srf:video:a2", "",
        [⟨some "a1", none, [], []⟩, ⟨some "a2", none, [], []⟩]⟩) "a2" =
      .builtChapter ⟨some "a2", none, [], []⟩ ∧
    ((([⟨some "a", none, [], []⟩] : List Chapter).find?
        (fun e => e.id == some "b")).getD
        (([⟨some "a", none, [], []⟩] : List Chapter).headD ⟨none, none, [], []⟩) =
      (⟨some "a", none, [], []⟩ : Chapter)) ∧
    ((((([⟨some "x", none, [], []⟩] : List Chapter) ++
        (⟨some "y", none, [], []⟩ : Chapter) :: []).find?
        (fun e => e.id == some "y")).getD
        ((([⟨some "x", none, [], []⟩] : List Chapter) ++
          (⟨some "y", none, [], []⟩ : Chapter) :: []).headD
          ⟨none, none, [], []⟩)) =
      (⟨some "y", none, [], []⟩ : Chapter)) := by
  refine ⟨?_, ?_, ?_, ?_⟩
  · exact C2_locate.1 ⟨"urn:srf:video:zzz", "", [⟨some "a", none, [], []⟩]⟩
      "zzz" (by decide) (by decide) "zzz"
  · exact C2_locate.2.1 ⟨"urn:srf:video:a2", "",
      [⟨some "a1", none, [], []⟩, ⟨some "a2", none, [], []⟩]⟩ "a2"
      [⟨some "a1", none, [], []⟩] ⟨some "a2", none, [], []⟩ []
      (by decide) rfl rfl (by decide)
  · exact C2_locate.2.2.1 [⟨some "a", none, [], []⟩] "b"
      ⟨some "a", none, [], []⟩ [] rfl (by decide)
  · exact C2_locate.2.2.2 [⟨some "x", none, [], []⟩]
      ⟨some "y", none, [], []⟩ [] "y" rfl (by decide)

/-- Claim C8 counterexample: the malformed URN "abc" does not degrade to
treating the whole string as the local id — the regex parser yields no id at
all, and build_episode_menu aborts even though a chapter with id "abc"
exists in the composition. -/
theorem C8_counterexample :
    matchIdRegex "abc" = none ∧
    build_episode_menu (some ⟨"abc", "", [⟨some "abc", none, [], []⟩]⟩) "abc" =
      .aborted "no valid chapter urn" ∧
    build_episode_menu (some ⟨"abc", "", [⟨some "abc", none, [], []⟩]⟩) "abc" ≠
      .builtChapter ⟨some "abc", none, [], []⟩ := by
  decide

/-- Claim C8 amended: identifier parsing never raises; a string of shape
word:word:word:rest (lowercase words, nonempty rest) yields rest as the id;
a string the regex does not match yields no identifier, upon which
build_episode_menu aborts cleanly (rather than crashing); and in play_video
an identifier that does not start with "urn:" is used whole as the final
URN component. -/
theorem C8_urn_parsing :
    (∀ w1 w2 w3 rest : List Char, lowerRun w1 = true → lowerRun w2 = true →
      lowerRun w3 = true → rest ≠ [] → (∀ c ∈ rest, c ≠ '\n') →
      matchIdRegex ⟨w1 ++ ':' :: (w2 ++ ':' :: (w3 ++ ':' :: rest))⟩ =
        some ⟨rest⟩) ∧
    (∀ s : String, matchIdRegex s = none → ∀ segUrn cl vid,
      build_episode_menu (some ⟨s, segUrn, cl⟩) vid =
        .aborted "no valid chapter urn") ∧
    (∀ vid : String, "urn:".data.isPrefixOf vid.data = false → ∀ bu audio,
      pvUrn bu vid audio =
        "urn:" ++ bu ++ ":" ++ (if audio then "audio" else "video") ++ ":" ++ vid) := by
  refine ⟨?_, ?_, ?_⟩
  · intro w1 w2 w3 rest h1 h2 h3 hne hnl
    have htw : rest.takeWhile (fun c => c != '\n') = rest :=
      takeWhile_all (fun c hc => by simp [hnl c hc])
    have hemp : rest.isEmpty = false := by
      cases rest with
      | nil => exact absurd rfl hne
      | cons x t => rfl
    simp only [matchIdRegex,
      splitFirst_append (w2 ++ ':' :: (w3 ++ ':' :: rest)) (lowerRun_no_colon h1),
      if_pos h1,
      splitFirst_append (w3 ++ ':' :: rest) (lowerRun_no_colon h2), if_pos h2,
      splitFirst_append rest (lowerRun_no_colon h3), if_pos h3, htw, hemp]
    rw [if_neg (by simp [hemp])]
  · intro s hm segUrn cl vid
    simp only [build_episode_menu, hm]
  · intro vid hpre bu audio
    rw [pvUrn, if_neg (by simp [hpre])]

/-- Witness for the amended C8 at concrete identifiers. -/
theorem C8_urn_parsing_witness :
    matchIdRegex "urn:srf:video:12-34" = some "12-34" ∧
    build_episode_menu (some ⟨"x!", "", []⟩) "v" =
      .aborted "no valid chapter urn" ∧
    pvUrn "srf" "12-34" false = "urn:srf:video:12-34" := by
  refine ⟨?_, ?_, ?_⟩
  · exact C8_urn_parsing.1 "urn".data "srf".data "video".data "12-34".data
      (by decide) (by decide) (by decide) (by decide) (by decide)
  · exact C8_urn_parsing.2.1 "x!" (by decide) "" [] "v"
  · exact C8_urn_parsing.2.2 "12-34" (by decide) "srf" false

/-- Claim C9: a segment whose markIn or markOut lies in 1..999 milliseconds
floor-divides to a whole-second value of 0, which the truthiness check of
line 1536 treats as absent — the time-window rewrite is skipped entirely and
the URL is unchanged. -/
theorem C9_subsecond_marks (url vid : String) (segList : List Segment)
    (seg : Segment) (m : Int)
    (hfind : segList.find? (fun s => s.id.getD "" == vid) = some seg)
    (h1 : 1 ≤ m) (h2 : m ≤ 999)
    (hm : seg.markIn = some m ∨ seg.markOut = some m) :
    windowStep url (segmentTimes segList vid) = url := by
  have hz : Int.fdiv m 1000 = 0 := fdiv_small (by omega) (by omega)
  have hm0 : ¬ m = 0 := by omega
  have hc : (truthyInt (segmentTimes segList vid).1 &&
      truthyInt (segmentTimes segList vid).2) = false := by
    rcases hm with h | h
    · have hfst : (segmentTimes segList vid).1 = some 0 := by
        simp only [segmentTimes, hfind, h]
        rw [if_neg hm0, hz]
      rw [hfst]
      simp [truthyInt]
    · have hsnd : (segmentTimes segList vid).2 = some 0 := by
        simp only [segmentTimes, hfind, h]
        rw [if_neg hm0, hz]
      rw [hsnd]
      simp [truthyInt]
  rw [windowStep, if_neg (by simp [hc])]

/-- Witness for C9: a segment with marks 500ms and 700ms leaves the URL
untouched. -/
theorem C9_subsecond_marks_witness :
    windowStep "https://x/m.mpd"
      (segmentTimes [⟨some "s1", some 500, some 700⟩] "s1") = "https://x/m.mpd" :=
  C9_subsecond_marks "https://x/m.mpd" "s1" [⟨some "s1", some 500, some 700⟩]
    ⟨some "s1", some 500, some 700⟩ 500 (by decide) (by decide) (by decide)
    (Or.inl rfl)

/-- Claim C10: whenever the resolution is audio — the audio flag was passed
or the located chapter's mediaType uppercases to AUDIO — and the selected
stream URL is non-empty with get_auth_url returning an authorized URL rather
than raising, play_video emits a plain item whose path is the raw selected
stream URL: the authorized URL is computed at line 1514 and then discarded,
and no window, manifest-type, license or subtitle fields exist on the audio
emission. -/
theorem C10_audio_raw_url (bu : String) (ph subt : Bool)
    (resp : MediaComposition) (tok : TokenResponse)
    (subs : Option (List String))
    (vid : String) (audio : Bool) (chapter : Chapter)
    (streamUrl authUrl : String)
    (hne : resp.chapterList.isEmpty = false)
    (hch : (resp.chapterList.find? (fun e => e.id == some vid)).getD
      (resp.chapterList.headD ⟨none, none, [], []⟩) = chapter)
    (hres : chapter.resourceList.isEmpty = false)
    (haud : (audio || (match chapter.mediaType with
      | some m => pyUpper m == "AUDIO"
      | none => false)) = true)
    (hsel : (selectResource true ph chapter.resourceList).stream_url =
      some streamUrl)
    (hsne : streamUrl.isEmpty = false)
    (hauth : get_auth_url tok streamUrl = .ok authUrl) :
    play_video bu ph subt (some resp) tok subs vid audio =
      .resolvedAudio (resp.episodeTitle.getD (pvUrn bu vid audio)) streamUrl := by
  simp only [play_video, hne, hch, haud, hres, hsel, hsne, hauth]
  simp

/-- Witness for C10: a chapter with mediaType "AuDiO" resolves as audio on
the raw stream URL even though get_auth_url succeeded and produced an
authorized URL carrying the auth parameters. -/
theorem C10_audio_raw_url_witness :
    get_auth_url (.parsed (some "sig=2")) "http://cdn/shows/a.mp3" =
      .ok "http://cdn/shows/a.mp3?sig=2" ∧
    play_video "srf" true true
      (some ⟨[⟨some "a", some "AuDiO",
        [⟨"HTTP", "SD", "http://cdn/shows/a.mp3", none⟩], []⟩], "", some "T"⟩)
      (.parsed (some "sig=2")) (some ["x"]) "a" false =
      .resolvedAudio "T" "http://cdn/shows/a.mp3" := by
  refine ⟨rfl, ?_⟩
  have h := C10_audio_raw_url "srf" true true
    ⟨[⟨some "a", some "AuDiO",
      [⟨"HTTP", "SD", "http://cdn/shows/a.mp3", none⟩], []⟩], "", some "T"⟩
    (.parsed (some "sig=2")) (some ["x"]) "a" false
    ⟨some "a", some "AuDiO", [⟨"HTTP", "SD", "http://cdn/shows/a.mp3", none⟩], []⟩
    "http://cdn/shows/a.mp3" "http://cdn/shows/a.mp3?sig=2"
    (by decide) (by decide) (by decide) (by decide) (by decide) (by decide)
    rfl
  exact h

end Srgssr
